import Mathlib

/-!
Verification of the collaboration-graph builders of the SNA scripts.

The scripts build undirected `networkx` graphs from scholar profiles:
`create_individual_network` (src/N.py, src/Final/main.py, src/Final/1.py),
`find_shared_connections` (src/N.py, src/Final/1.py) and
`create_combined_network` (src/Final/main.py), plus centrality statistics
(`analyze_network_statistics`, which calls the networkx centrality routines).

The embedding below mirrors the `networkx.Graph` operations the scripts use:

* `add_node(n, attrs)` inserts a node if it is new and always (re)writes the
  given attributes, also when the node already exists;
* `add_edge(u, v, attrs)` creates missing endpoints, stores each unordered
  edge once (a second addition merges attributes instead of adding a
  parallel edge), and permits self-loops;
* `G.neighbors(n)` lists the other endpoint of each stored edge incident to
  `n`, in edge insertion order.

The only node attribute relevant to the claims is the classification string
(`node_type` in src/N.py and src/Final/1.py, `group` in src/Final/main.py);
purely presentational attributes (`title`, `size`) are not modelled.  Python
`set` objects have unspecified iteration order; they are modelled as
deduplicated lists (`List.dedup`), and all claims proved below depend only on
membership and cardinality, never on that order.
-/

/-- A scholar profile as consumed by the builders: the display name and the
coauthor names in list order (`profile["name"]`, `[c["name"] for c in
profile["coauthors"]]`).  `extract_scholar_profile` returns either such a
record or `None`; the builders receive `Option Profile`. -/
structure Profile where
  name : String
  coauthors : List String
deriving DecidableEq

/-- Collaboration graph state, mirroring the parts of `networkx.Graph` used by
the scripts: node insertion order, the classification attribute of each node
(`node_type`/`group`), the stored edges (each unordered edge once, in
insertion order), and the `weight` / `shared_coauthors` edge attributes. -/
structure Graph where
  nodeOrder : List String
  attr : String → Option String
  edges : List (String × String)
  weight : String → String → Option Nat
  shared : String → String → Option (List String)

def Graph.empty : Graph :=
  ⟨[], fun _ => none, [], fun _ _ => none, fun _ _ => none⟩

def Graph.hasNode (G : Graph) (n : String) : Bool :=
  n ∈ G.nodeOrder

/-- Insert a node without touching any attribute (what `add_edge` does to a
missing endpoint). -/
def Graph.ensureNode (G : Graph) (n : String) : Graph :=
  if G.hasNode n then G else { G with nodeOrder := G.nodeOrder ++ [n] }

/-- `G.add_node(n, node_type/group = t)`: inserts the node if it is new and
always (re)writes its classification attribute — networkx updates the
attributes of an existing node. -/
def Graph.addNode (G : Graph) (n t : String) : Graph :=
  let G' := G.ensureNode n
  { G' with attr := fun m => if m = n then some t else G.attr m }

/-- Unordered equality of the vertex pairs `(a, b)` and `(c, d)`. -/
def uPair (a b c d : String) : Prop :=
  (a = c ∧ b = d) ∨ (a = d ∧ b = c)

instance (a b c d : String) : Decidable (uPair a b c d) := by
  unfold uPair; infer_instance

def Graph.hasEdge (G : Graph) (u v : String) : Bool :=
  G.edges.any fun e => decide (uPair u v e.1 e.2)

/-- `G.add_edge(u, v)` with no attributes: endpoints are created if missing,
the edge is stored once, existing edge attributes are kept. -/
def Graph.addEdgePlain (G : Graph) (u v : String) : Graph :=
  let G' := (G.ensureNode u).ensureNode v
  if G.hasEdge u v then G' else { G' with edges := G'.edges ++ [(u, v)] }

/-- `G.add_edge(u, v, weight = w, shared_coauthors = s)`: as `addEdgePlain`,
but the two attributes are (re)written whether or not the edge existed. -/
def Graph.addEdgeW (G : Graph) (u v : String) (w : Nat) (s : List String) : Graph :=
  let G' := G.addEdgePlain u v
  { G' with
    weight := fun a b => if uPair a b u v then some w else G.weight a b,
    shared := fun a b => if uPair a b u v then some s else G.shared a b }

/-- `G.nodes[n]['group'] = t` on an existing node. -/
def Graph.setAttr (G : Graph) (n t : String) : Graph :=
  { G with attr := fun m => if m = n then some t else G.attr m }

/-- `G[u][v]['weight'] = G[u][v].get('weight', 1) + 1` together with appending
`c` to `shared_coauthors` (creating that list as `[c]` when absent), as in the
reclassification loop of `create_combined_network`. -/
def Graph.bumpEdge (G : Graph) (u v : String) (c : String) : Graph :=
  { G with
    weight := fun a b =>
      if uPair a b u v then some ((G.weight u v).getD 1 + 1) else G.weight a b,
    shared := fun a b =>
      if uPair a b u v then some ((G.shared u v).getD [] ++ [c]) else G.shared a b }

/-- Adjacency list of `n`: the other endpoint of each stored edge incident to
`n`, in edge insertion order (`G.neighbors(n)`). -/
def Graph.neighbors (G : Graph) (n : String) : List String :=
  G.edges.filterMap fun e =>
    if e.1 = n then some e.2 else if e.2 = n then some e.1 else none

/-- `itertools.combinations(l, 2)`, in iteration order. -/
def combinations2 {α : Type} : List α → List (α × α)
  | [] => []
  | x :: xs => xs.map (fun y => (x, y)) ++ combinations2 xs

/-- `create_individual_network` (src/N.py lines 22-39; the versions in
src/Final/main.py and src/Final/1.py differ only in presentational
attributes): `None` input gives `None`; otherwise the professor node is added
first, then each coauthor is added with classification `coauthor` (an
attribute update when the name already exists) together with a
professor–coauthor edge. -/
def create_individual_network : Option Profile → Option Graph
  | none => none
  | some p =>
    some (p.coauthors.foldl
      (fun G c => (G.addNode c "coauthor").addEdgePlain p.name c)
      (Graph.empty.addNode p.name "professor"))

/-- Phase 1 of `find_shared_connections` (src/N.py lines 74-82): build the
`prof_coauthors` dict (Python dict assignment: overwrite in place on a
repeated key, append otherwise) and add one professor node per profile. -/
def dictInsert (d : List (String × List String)) (k : String) (v : List String) :
    List (String × List String) :=
  if d.any (fun kv => kv.1 = k) then
    d.map fun kv => if kv.1 = k then (k, v) else kv
  else d ++ [(k, v)]

def sharedPhase1Step (s : List (String × List String) × Graph) (op : Option Profile) :
    List (String × List String) × Graph :=
  match op with
  | none => s
  | some p =>
    (dictInsert s.1 p.name p.coauthors.dedup, s.2.addNode p.name "professor")

def sharedPhase1 (profiles : List (Option Profile)) :
    List (String × List String) × Graph :=
  profiles.foldl sharedPhase1Step ([], Graph.empty)

/-- The intersection `coauthors1.intersection(coauthors2)` of one professor
pair, as the sublist of the (already deduplicated) first coauthor set. -/
def interOf (pr : (String × List String) × (String × List String)) : List String :=
  pr.1.2.filter fun c => c ∈ pr.2.2

/-- The body of the inner loop of `find_shared_connections` for one shared
coauthor: the `shared_coauthor` node and its edges to both professors. -/
def addSharedChainStep (p q : String) (H : Graph) (c : String) : Graph :=
  ((H.addNode c "shared_coauthor").addEdgePlain p c).addEdgePlain q c

def sharedPairStep (G : Graph)
    (pr : (String × List String) × (String × List String)) : Graph :=
  let shared := interOf pr
  if shared.isEmpty then G
  else
    shared.foldl (addSharedChainStep pr.1.1 pr.2.1)
      (G.addEdgeW pr.1.1 pr.2.1 shared.length shared)

/-- `find_shared_connections` (src/N.py lines 67-97; src/Final/1.py lines
76-107 is the same computation). -/
def find_shared_connections (profiles : List (Option Profile)) : Graph :=
  (combinations2 (sharedPhase1 profiles).1).foldl sharedPairStep (sharedPhase1 profiles).2

/-- One coauthor of phase 1 of `create_combined_network`: the node is
classified `coauthor` only when it is new (`if not G.has_node(...)`), then
the professor–coauthor edge is added. -/
def coStep (pname : String) (H : Graph) (c : String) : Graph :=
  (if H.hasNode c then H else H.addNode c "coauthor").addEdgePlain pname c

/-- One profile of phase 1 of `create_combined_network` (src/Final/main.py
lines 75-88): the professor node, then its coauthors. -/
def addProfile (G : Graph) (p : Profile) : Graph :=
  p.coauthors.foldl (coStep p.name) (G.addNode p.name "professor")

def combinedStep (G : Graph) (op : Option Profile) : Graph :=
  match op with
  | none => G
  | some p => addProfile G p

def combinedPhase1 (profiles : List (Option Profile)) : Graph :=
  profiles.foldl combinedStep Graph.empty

/-- One professor pair of the reclassification loop of
`create_combined_network`: upgrade the direct edge (`has_edge` check, then
weight increment / creation). -/
def pairUpStep (n : String) (H : Graph) (pq : String × String) : Graph :=
  if H.hasEdge pq.1 pq.2 then H.bumpEdge pq.1 pq.2 n
  else H.addEdgeW pq.1 pq.2 1 [n]

/-- Phase 2 of `create_combined_network` at one node (src/Final/main.py lines
92-113): a `coauthor` node whose neighbor list contains more than one
`professor` is reclassified `shared_coauthor`, and every pair of those
professors gets its direct edge created (`weight=1, shared_coauthors=[node]`)
or upgraded (weight incremented, node appended). -/
def processNode (G : Graph) (n : String) : Graph :=
  if G.attr n = some "coauthor" then
    if 1 < ((G.neighbors n).filter fun m => G.attr m = some "professor").length then
      (combinations2 ((G.neighbors n).filter fun m => G.attr m = some "professor")).foldl
        (pairUpStep n) (G.setAttr n "shared_coauthor")
    else G
  else G

/-- `create_combined_network` (src/Final/main.py lines 70-115): the merged
direct networks, then the reclassification pass over the node list (no nodes
are added during that pass, so iterating the phase-1 node list is the
iteration the script performs). -/
def create_combined_network (profiles : List (Option Profile)) : Graph :=
  (combinedPhase1 profiles).nodeOrder.foldl processNode (combinedPhase1 profiles)

/-- Node degree as networkx reports it (self-loops count twice). -/
def Graph.degree (G : Graph) (n : String) : Nat :=
  (G.edges.map fun e =>
    if e.1 = n ∧ e.2 = n then 2 else if e.1 = n ∨ e.2 = n then 1 else 0).sum

/-- `networkx.degree_centrality`, as called by `analyze_network_statistics`
(src/N.py line 154, src/Final/1.py line 179): degree divided by `N - 1`,
except that every node of a graph with at most one node gets value `1`
(`if len(G) <= 1: return {n: 1 for n in G}` in the library).  The Python
float arithmetic is modelled exactly over `ℚ`. -/
def degree_centrality (G : Graph) (n : String) : ℚ :=
  if G.nodeOrder.length ≤ 1 then 1
  else (G.degree n : ℚ) / ((G.nodeOrder.length : ℚ) - 1)

/-- The eigenvector-centrality step of `analyze_network_statistics` in
src/Final/1.py (lines 183-188).  The external call
`nx.eigenvector_centrality(G, max_iter=1000, tol=1e-6)` either returns a
per-node map or raises `PowerIterationFailedConvergence`; the script wraps it
in `try/except`, and on failure prints a warning and zero-fills every node of
the graph.  The outcome of the external call is a parameter; the result pairs
a warning flag with the per-node values. -/
def analyze_eigenvector_final1 (G : Graph)
    (eig : Except Unit (List (String × ℚ))) : Bool × List (String × ℚ) :=
  match eig with
  | .ok f => (false, f)
  | .error _ => (true, G.nodeOrder.map fun n => (n, 0))

/-- The same step in `analyze_network_statistics` of src/N.py (line 157):
the call has no exception handler, so a convergence failure propagates to the
caller unchanged. -/
def analyze_eigenvector_N (_G : Graph)
    (eig : Except Unit (List (String × ℚ))) : Except Unit (List (String × ℚ)) :=
  match eig with
  | .ok f => .ok f
  | .error e => .error e

/-! ### Graph invariants and basic lemmas about the primitive operations -/

/-- Each unordered edge is stored at most once (networkx merges repeated
additions instead of creating parallel edges). -/
def edgesDistinct (G : Graph) : Prop :=
  G.edges.Pairwise fun e e' => ¬ uPair e.1 e.2 e'.1 e'.2

def noSelfLoops (G : Graph) : Prop :=
  ∀ e ∈ G.edges, e.1 ≠ e.2

def edgesValid (G : Graph) : Prop :=
  ∀ e ∈ G.edges, e.1 ∈ G.nodeOrder ∧ e.2 ∈ G.nodeOrder

theorem uPair_refl (a b : String) : uPair a b a b := Or.inl ⟨rfl, rfl⟩

theorem uPair_comm {a b c d : String} (h : uPair a b c d) : uPair b a c d := by
  rcases h with ⟨h1, h2⟩ | ⟨h1, h2⟩
  · exact Or.inr ⟨h2, h1⟩
  · exact Or.inl ⟨h2, h1⟩

theorem uPair_symm {a b c d : String} (h : uPair a b c d) : uPair c d a b := by
  rcases h with ⟨h1, h2⟩ | ⟨h1, h2⟩
  · exact Or.inl ⟨h1.symm, h2.symm⟩
  · exact Or.inr ⟨h2.symm, h1.symm⟩

theorem uPair_trans {a b c d x y : String} (h1 : uPair a b x y) (h2 : uPair c d x y) :
    uPair a b c d := by
  rcases h1 with ⟨e1, e2⟩ | ⟨e1, e2⟩ <;> rcases h2 with ⟨f1, f2⟩ | ⟨f1, f2⟩ <;>
    subst e1 <;> subst e2 <;>
    first
      | exact Or.inl ⟨f1.symm, f2.symm⟩
      | exact Or.inr ⟨f2.symm, f1.symm⟩

theorem hasNode_iff {G : Graph} {n : String} : G.hasNode n = true ↔ n ∈ G.nodeOrder := by
  simp [Graph.hasNode]

theorem hasEdge_iff {G : Graph} {u v : String} :
    G.hasEdge u v = true ↔ ∃ e ∈ G.edges, uPair u v e.1 e.2 := by
  simp [Graph.hasEdge, List.any_eq_true]

theorem mem_neighbors {G : Graph} {n m : String} :
    m ∈ G.neighbors n ↔ G.hasEdge n m = true := by
  rw [hasEdge_iff]
  simp only [Graph.neighbors, List.mem_filterMap]
  constructor
  · rintro ⟨e, he, hf⟩
    by_cases h1 : e.1 = n
    · simp [h1] at hf
      exact ⟨e, he, Or.inl ⟨h1.symm, hf.symm⟩⟩
    · by_cases h2 : e.2 = n
      · simp [h1, h2] at hf
        exact ⟨e, he, Or.inr ⟨h2.symm, hf.symm⟩⟩
      · simp [h1, h2] at hf
  · rintro ⟨e, he, h | h⟩
    · exact ⟨e, he, by simp [h.1.symm, h.2.symm]⟩
    · refine ⟨e, he, ?_⟩
      rcases h with ⟨h2, h3⟩
      by_cases h1 : e.1 = n
      · rw [if_pos h1, ← h2, h3, h1]
      · rw [if_neg h1, if_pos h2.symm, h3]

/-! Effect of the primitive operations on each field. -/

theorem ensureNode_attr (G : Graph) (n : String) : (G.ensureNode n).attr = G.attr := by
  unfold Graph.ensureNode; split <;> rfl

theorem ensureNode_edges (G : Graph) (n : String) : (G.ensureNode n).edges = G.edges := by
  unfold Graph.ensureNode; split <;> rfl

theorem ensureNode_weight (G : Graph) (n : String) : (G.ensureNode n).weight = G.weight := by
  unfold Graph.ensureNode; split <;> rfl

theorem ensureNode_shared (G : Graph) (n : String) : (G.ensureNode n).shared = G.shared := by
  unfold Graph.ensureNode; split <;> rfl

theorem mem_ensureNode {G : Graph} {n m : String} :
    m ∈ (G.ensureNode n).nodeOrder ↔ m ∈ G.nodeOrder ∨ m = n := by
  unfold Graph.ensureNode
  split
  · rename_i h
    rw [hasNode_iff] at h
    constructor
    · exact Or.inl
    · rintro (hm | rfl) <;> [exact hm; exact h]
  · simp

theorem ensureNode_nodup {G : Graph} (h : G.nodeOrder.Nodup) (n : String) :
    (G.ensureNode n).nodeOrder.Nodup := by
  unfold Graph.ensureNode
  split
  · exact h
  · rename_i hn
    rw [hasNode_iff] at hn
    simpa [List.nodup_append] using ⟨h, hn⟩

theorem addNode_attr (G : Graph) (n t m : String) :
    (G.addNode n t).attr m = if m = n then some t else G.attr m := rfl

theorem addNode_edges (G : Graph) (n t : String) : (G.addNode n t).edges = G.edges :=
  ensureNode_edges G n

theorem addNode_weight (G : Graph) (n t : String) : (G.addNode n t).weight = G.weight :=
  ensureNode_weight G n

theorem addNode_shared (G : Graph) (n t : String) : (G.addNode n t).shared = G.shared :=
  ensureNode_shared G n

theorem mem_addNode {G : Graph} {n t m : String} :
    m ∈ (G.addNode n t).nodeOrder ↔ m ∈ G.nodeOrder ∨ m = n := mem_ensureNode

theorem addNode_nodup {G : Graph} (h : G.nodeOrder.Nodup) (n t : String) :
    (G.addNode n t).nodeOrder.Nodup := ensureNode_nodup h n

theorem addEdgePlain_attr (G : Graph) (u v : String) :
    (G.addEdgePlain u v).attr = G.attr := by
  unfold Graph.addEdgePlain
  split <;> simp [ensureNode_attr]

theorem addEdgePlain_weight (G : Graph) (u v : String) :
    (G.addEdgePlain u v).weight = G.weight := by
  unfold Graph.addEdgePlain
  split <;> simp [ensureNode_weight]

theorem addEdgePlain_shared (G : Graph) (u v : String) :
    (G.addEdgePlain u v).shared = G.shared := by
  unfold Graph.addEdgePlain
  split <;> simp [ensureNode_shared]

theorem addEdgePlain_edges (G : Graph) (u v : String) :
    (G.addEdgePlain u v).edges =
      if G.hasEdge u v then G.edges else G.edges ++ [(u, v)] := by
  unfold Graph.addEdgePlain
  split <;> simp_all [ensureNode_edges]

theorem mem_addEdgePlain {G : Graph} {u v m : String} :
    m ∈ (G.addEdgePlain u v).nodeOrder ↔ m ∈ G.nodeOrder ∨ m = u ∨ m = v := by
  unfold Graph.addEdgePlain
  split <;> simp [mem_ensureNode, or_assoc]

theorem addEdgePlain_nodup {G : Graph} (h : G.nodeOrder.Nodup) (u v : String) :
    (G.addEdgePlain u v).nodeOrder.Nodup := by
  unfold Graph.addEdgePlain
  split <;> exact ensureNode_nodup (ensureNode_nodup h u) v

theorem hasEdge_addEdgePlain {G : Graph} {u v a b : String} :
    (G.addEdgePlain u v).hasEdge a b = true ↔
      G.hasEdge a b = true ∨ uPair a b u v := by
  rw [hasEdge_iff, hasEdge_iff, addEdgePlain_edges]
  split
  · rename_i h
    constructor
    · exact Or.inl
    · rintro (he | hp)
      · exact he
      · rw [hasEdge_iff] at h
        obtain ⟨e, he, hu⟩ := h
        exact ⟨e, he, uPair_trans hp (uPair_symm hu)⟩
  · simp only [List.mem_append, List.mem_singleton]
    constructor
    · rintro ⟨e, he | rfl, hp⟩
      · exact Or.inl ⟨e, he, hp⟩
      · exact Or.inr hp
    · rintro (⟨e, he, hp⟩ | hp)
      · exact ⟨e, Or.inl he, hp⟩
      · exact ⟨(u, v), Or.inr rfl, hp⟩

theorem addEdgeW_attr (G : Graph) (u v : String) (w : Nat) (s : List String) :
    (G.addEdgeW u v w s).attr = G.attr := addEdgePlain_attr G u v

theorem addEdgeW_edges (G : Graph) (u v : String) (w : Nat) (s : List String) :
    (G.addEdgeW u v w s).edges =
      if G.hasEdge u v then G.edges else G.edges ++ [(u, v)] := addEdgePlain_edges G u v

theorem mem_addEdgeW {G : Graph} {u v m : String} {w : Nat} {s : List String} :
    m ∈ (G.addEdgeW u v w s).nodeOrder ↔ m ∈ G.nodeOrder ∨ m = u ∨ m = v :=
  mem_addEdgePlain

theorem addEdgeW_nodup {G : Graph} (h : G.nodeOrder.Nodup) (u v : String)
    (w : Nat) (s : List String) : (G.addEdgeW u v w s).nodeOrder.Nodup :=
  addEdgePlain_nodup h u v

theorem hasEdge_addEdgeW {G : Graph} {u v a b : String} {w : Nat} {s : List String} :
    (G.addEdgeW u v w s).hasEdge a b = true ↔
      G.hasEdge a b = true ∨ uPair a b u v := hasEdge_addEdgePlain

theorem addEdgeW_weight (G : Graph) (u v : String) (w : Nat) (s : List String)
    (a b : String) :
    (G.addEdgeW u v w s).weight a b = if uPair a b u v then some w else G.weight a b := rfl

theorem addEdgeW_shared (G : Graph) (u v : String) (w : Nat) (s : List String)
    (a b : String) :
    (G.addEdgeW u v w s).shared a b = if uPair a b u v then some s else G.shared a b := rfl

theorem setAttr_attr (G : Graph) (n t m : String) :
    (G.setAttr n t).attr m = if m = n then some t else G.attr m := rfl

theorem setAttr_nodeOrder (G : Graph) (n t : String) :
    (G.setAttr n t).nodeOrder = G.nodeOrder := rfl

theorem setAttr_edges (G : Graph) (n t : String) : (G.setAttr n t).edges = G.edges := rfl

theorem setAttr_weight (G : Graph) (n t : String) : (G.setAttr n t).weight = G.weight := rfl

theorem setAttr_shared (G : Graph) (n t : String) : (G.setAttr n t).shared = G.shared := rfl

theorem bumpEdge_nodeOrder (G : Graph) (u v c : String) :
    (G.bumpEdge u v c).nodeOrder = G.nodeOrder := rfl

theorem bumpEdge_attr (G : Graph) (u v c : String) : (G.bumpEdge u v c).attr = G.attr := rfl

theorem bumpEdge_edges (G : Graph) (u v c : String) : (G.bumpEdge u v c).edges = G.edges := rfl

theorem bumpEdge_weight (G : Graph) (u v c : String) (a b : String) :
    (G.bumpEdge u v c).weight a b =
      if uPair a b u v then some ((G.weight u v).getD 1 + 1) else G.weight a b := rfl

/-- `neighbors` only depends on the edge list. -/
theorem neighbors_congr {G H : Graph} (h : G.edges = H.edges) (n : String) :
    G.neighbors n = H.neighbors n := by
  unfold Graph.neighbors
  rw [h]

/-- `hasEdge` only depends on the edge list. -/
theorem hasEdge_congr {G H : Graph} (h : G.edges = H.edges) (u v : String) :
    G.hasEdge u v = H.hasEdge u v := by
  unfold Graph.hasEdge
  rw [h]

/-- Distinct stored edges sharing the endpoint `n` have distinct other
endpoints, so adjacency lists of a graph with `edgesDistinct` are duplicate
free. -/
theorem neighbors_nodup {G : Graph} (h : edgesDistinct G) (n : String) :
    (G.neighbors n).Nodup := by
  unfold Graph.neighbors
  unfold edgesDistinct at h
  have main : ∀ es : List (String × String),
      es.Pairwise (fun e e' => ¬ uPair e.1 e.2 e'.1 e'.2) →
      (es.filterMap fun e =>
        if e.1 = n then some e.2 else if e.2 = n then some e.1 else none).Nodup := by
    intro es hes
    induction es with
    | nil => simp
    | cons e es ih =>
      rw [List.pairwise_cons] at hes
      rw [List.filterMap_cons]
      have hrest := ih hes.2
      have hnotin : ∀ m, (if e.1 = n then some e.2 else if e.2 = n then some e.1 else none) = some m →
          m ∉ es.filterMap fun e' =>
            if e'.1 = n then some e'.2 else if e'.2 = n then some e'.1 else none := by
        intro m hm hmem
        rw [List.mem_filterMap] at hmem
        obtain ⟨e', he', hm'⟩ := hmem
        have hp : uPair n m e.1 e.2 := by
          by_cases h1 : e.1 = n
          · rw [if_pos h1] at hm
            exact Or.inl ⟨h1.symm, (Option.some_injective _ hm).symm⟩
          · by_cases h2 : e.2 = n
            · rw [if_neg h1, if_pos h2] at hm
              exact Or.inr ⟨h2.symm, (Option.some_injective _ hm).symm⟩
            · rw [if_neg h1, if_neg h2] at hm
              cases hm
        have hp' : uPair n m e'.1 e'.2 := by
          by_cases h1 : e'.1 = n
          · rw [if_pos h1] at hm'
            exact Or.inl ⟨h1.symm, (Option.some_injective _ hm').symm⟩
          · by_cases h2 : e'.2 = n
            · rw [if_neg h1, if_pos h2] at hm'
              exact Or.inr ⟨h2.symm, (Option.some_injective _ hm').symm⟩
            · rw [if_neg h1, if_neg h2] at hm'
              cases hm'
        exact hes.1 e' he' (uPair_trans (uPair_symm hp) (uPair_symm hp'))
      by_cases hcase : e.1 = n
      · rw [if_pos hcase, List.nodup_cons]
        exact ⟨hnotin e.2 (by rw [if_pos hcase]), hrest⟩
      · by_cases hcase2 : e.2 = n
        · rw [if_neg hcase, if_pos hcase2, List.nodup_cons]
          exact ⟨hnotin e.1 (by rw [if_neg hcase, if_pos hcase2]), hrest⟩
        · rw [if_neg hcase, if_neg hcase2]
          exact hrest
  exact main G.edges h

/-- Adding an edge keeps the stored edges pairwise distinct. -/
theorem edgesDistinct_addEdgePlain {G : Graph} (h : edgesDistinct G) (u v : String) :
    edgesDistinct (G.addEdgePlain u v) := by
  unfold edgesDistinct at h ⊢
  rw [addEdgePlain_edges]
  split
  · exact h
  · rename_i hne
    rw [List.pairwise_append]
    refine ⟨h, by simp, ?_⟩
    intro e he e' he'
    rw [List.mem_singleton] at he'
    subst he'
    intro hp
    exact absurd (hasEdge_iff.mpr ⟨e, he, uPair_symm hp⟩) (by simpa using hne)

theorem edgesDistinct_addEdgeW {G : Graph} (h : edgesDistinct G) (u v : String)
    (w : Nat) (s : List String) : edgesDistinct (G.addEdgeW u v w s) :=
  edgesDistinct_addEdgePlain h u v

theorem edgesDistinct_addNode {G : Graph} (h : edgesDistinct G) (n t : String) :
    edgesDistinct (G.addNode n t) := by
  unfold edgesDistinct at h ⊢
  rw [addNode_edges]
  exact h

/-- Adding an edge with distinct endpoints preserves self-loop freedom. -/
theorem noSelfLoops_addEdgePlain {G : Graph} (h : noSelfLoops G) {u v : String}
    (huv : u ≠ v) : noSelfLoops (G.addEdgePlain u v) := by
  unfold noSelfLoops at h ⊢
  rw [addEdgePlain_edges]
  split
  · exact h
  · intro e he
    rw [List.mem_append, List.mem_singleton] at he
    rcases he with he | rfl
    · exact h e he
    · exact huv

theorem noSelfLoops_addEdgeW {G : Graph} (h : noSelfLoops G) {u v : String}
    (huv : u ≠ v) (w : Nat) (s : List String) : noSelfLoops (G.addEdgeW u v w s) :=
  noSelfLoops_addEdgePlain h huv

theorem noSelfLoops_addNode {G : Graph} (h : noSelfLoops G) (n t : String) :
    noSelfLoops (G.addNode n t) := by
  unfold noSelfLoops at h ⊢
  rw [addNode_edges]
  exact h

/-! ### C7: empty/missing input to the Individual Network Builder -/

/-- C7 counterexample: on a missing profile `create_individual_network` does
not return an empty graph — it returns no graph at all (`None`,
src/N.py lines 24-25), so the claim "returns an empty graph (a graph with no
nodes and no edges)" fails at input `None`. -/
theorem C7_counterexample : (create_individual_network none).isSome = false := rfl

/-- C7 (amended): for an empty/missing input profile the Individual Network
Builder returns `None` (no graph object) and does not raise an error. -/
theorem C7_amended_none_input : create_individual_network none = none := rfl

/-! ### C8: a profile with an empty coauthor list -/

/-- C8: for every `ProfileRecord` with an empty coauthor list, the Individual
Network Builder returns a graph with exactly one node — the professor,
classified `professor` — and zero edges. -/
theorem C8_individual_empty_coauthors (p : Profile) (h : p.coauthors = []) :
    ∃ G, create_individual_network (some p) = some G ∧
      G.nodeOrder = [p.name] ∧ G.edges = [] ∧ G.attr p.name = some "professor" := by
  refine ⟨Graph.empty.addNode p.name "professor", ?_, ?_, ?_, ?_⟩
  · show some (p.coauthors.foldl _ _) = _
    rw [h]
    rfl
  · rfl
  · rfl
  · simp [addNode_attr]

theorem C8_witness :
    ∃ G, create_individual_network (some ⟨"P", []⟩) = some G ∧
      G.nodeOrder = ["P"] ∧ G.edges = [] ∧ G.attr "P" = some "professor" :=
  C8_individual_empty_coauthors ⟨"P", []⟩ rfl

/-! ### C4: non-convergence of eigenvector centrality -/

/-- C4 counterexample: the claim covers `analyze_network_statistics` of
src/N.py (lines 152-163) as well, but there the call
`nx.eigenvector_centrality(G, max_iter=1000, tol=1e-6)` has no exception
handler, so on non-convergence the exception propagates to the caller
instead of being zero-filled. -/
theorem C4_counterexample :
    analyze_eigenvector_N ((create_individual_network (some ⟨"P", ["A"]⟩)).getD Graph.empty)
      (.error ()) = .error () := rfl

/-- C4 (amended): in src/Final/1.py's `analyze_network_statistics`, when the
eigenvector-centrality call fails to converge (within `max_iter=1000`,
`tol=1e-6`), the warning flag is raised, every node of the graph is reported
with eigenvector value `0`, and no exception reaches the caller; in
src/N.py's `analyze_network_statistics` the exception propagates. -/
theorem C4_amended_eigenvector_zero_fill (G : Graph) (e : Unit) :
    analyze_eigenvector_final1 G (.error e) = (true, G.nodeOrder.map fun n => (n, 0)) ∧
      ∀ n ∈ G.nodeOrder, (n, (0 : ℚ)) ∈ (analyze_eigenvector_final1 G (.error e)).2 := by
  refine ⟨rfl, fun n hn => ?_⟩
  exact List.mem_map.mpr ⟨n, hn, rfl⟩

/-! ### C5: the three-profile end-to-end scenario -/

/-- C5: on the input P1 ↦ {A,B}, P2 ↦ {B,C}, P3 ↦ {C,A}, the
Shared-Connections Builder produces exactly the professor nodes P1, P2, P3,
exactly the `shared_coauthor` nodes B, A, C, each shared coauthor adjacent to
exactly 2 professors, and exactly the three professor–professor edges, each
with weight 1 and a singleton `shared_coauthors` list. -/
def triangleG : Graph :=
  find_shared_connections
    [some ⟨"P1", ["A", "B"]⟩, some ⟨"P2", ["B", "C"]⟩, some ⟨"P3", ["C", "A"]⟩]

theorem C5_triangle_scenario :
    (triangleG.nodeOrder.filter fun n => decide (triangleG.attr n = some "professor")) = ["P1", "P2", "P3"]
    ∧ (triangleG.nodeOrder.filter fun n => decide (triangleG.attr n = some "shared_coauthor")) = ["B", "A", "C"]
    ∧ (∀ c ∈ ["A", "B", "C"],
        ((triangleG.neighbors c).filter fun m => decide (triangleG.attr m = some "professor")).length = 2)
    ∧ (triangleG.edges.filter fun e =>
        decide (triangleG.attr e.1 = some "professor" ∧ triangleG.attr e.2 = some "professor"))
        = [("P1", "P2"), ("P1", "P3"), ("P2", "P3")]
    ∧ triangleG.weight "P1" "P2" = some 1 ∧ triangleG.weight "P1" "P3" = some 1 ∧ triangleG.weight "P2" "P3" = some 1
    ∧ triangleG.shared "P1" "P2" = some ["B"] ∧ triangleG.shared "P1" "P3" = some ["A"]
    ∧ triangleG.shared "P2" "P3" = some ["C"] := by
  decide

/-! ### Concrete counterexamples for C1, C2, C3, C9, C10 -/

/-- C1 counterexample: a name appearing as a professor in the input can lose
its `professor` classification.  In `create_individual_network`, a profile
listing its own name as a coauthor reclassifies the professor node to
`coauthor` (networkx `add_node` overwrites attributes, src/N.py line 36); in
`find_shared_connections`, professor Z lying in the coauthor intersection of
X and Y is reclassified `shared_coauthor` (src/N.py line 93, which has no
"if not already a professor" guard). -/
theorem C1_counterexample :
    ((create_individual_network (some ⟨"P", ["P"]⟩)).getD Graph.empty).attr "P"
        = some "coauthor"
    ∧ (find_shared_connections
        [some ⟨"X", ["Z"]⟩, some ⟨"Y", ["Z"]⟩, some ⟨"Z", []⟩]).attr "Z"
        = some "shared_coauthor" := by
  decide

/-- C2 counterexample: the Combined builder and the Shared-Connections
builder do not have the same node membership — a coauthor appearing in a
single profile is a node of the combined graph but absent from the
shared-connections graph. -/
theorem C2_counterexample :
    (create_combined_network [some ⟨"P1", ["a"]⟩]).hasNode "a" = true
    ∧ (find_shared_connections [some ⟨"P1", ["a"]⟩]).hasNode "a" = false := by
  decide

/-- C3 counterexample: with a duplicated professor name the `prof_coauthors`
dict keeps only the last coauthor set for that name, so permuting the input
changes which set survives: the two runs below give graphs with 2 and 3
nodes, which cannot be isomorphic. -/
theorem C3_counterexample :
    [Profile.mk "X" [], Profile.mk "X" ["a"], Profile.mk "Y" ["a"]].Perm
      [Profile.mk "X" ["a"], Profile.mk "X" [], Profile.mk "Y" ["a"]]
    ∧ (find_shared_connections
        [some ⟨"X", ["a"]⟩, some ⟨"X", []⟩, some ⟨"Y", ["a"]⟩]).nodeOrder.length = 2
    ∧ (find_shared_connections
        [some ⟨"X", []⟩, some ⟨"X", ["a"]⟩, some ⟨"Y", ["a"]⟩]).nodeOrder.length = 3 := by
  refine ⟨List.Perm.swap _ _ _, by decide, by decide⟩

/-- C9 counterexample: the builders do produce self-loops — a profile whose
coauthor list contains the professor's own name yields the edge (P, P)
(`G.add_edge(prof_name, coauthor_name)` with equal endpoints, src/N.py
line 37). -/
theorem C9_counterexample :
    ((create_individual_network (some ⟨"P", ["P"]⟩)).getD Graph.empty).edges
      = [("P", "P")] := by
  decide

/-- C10 counterexample: with a duplicated professor name the node set is not
the professor names plus the union of pairwise coauthor intersections: "a"
lies in the intersection of the coauthor sets of the first and third records
(and no professor name occurs in any coauthor set), yet it is not a node,
because the dict entry for X was overwritten by the second record's empty
set. -/
theorem C10_counterexample :
    "a" ∈ (Profile.mk "X" ["a"]).coauthors ∧ "a" ∈ (Profile.mk "Y" ["a"]).coauthors
    ∧ (find_shared_connections
        [some ⟨"X", ["a"]⟩, some ⟨"X", []⟩, some ⟨"Y", ["a"]⟩]).hasNode "a" = false := by
  decide

/-! ### C6: degree centrality -/

theorem degree_eq_zero_of_isolated {G : Graph} {n : String}
    (h : ∀ e ∈ G.edges, e.1 ≠ n ∧ e.2 ≠ n) : G.degree n = 0 := by
  unfold Graph.degree
  apply List.sum_eq_zero
  intro x hx
  rw [List.mem_map] at hx
  obtain ⟨e, he, rfl⟩ := hx
  have := h e he
  simp [this.1, this.2]

/-- Without a self-loop at `n`, the networkx degree of `n` is the length of
its adjacency list. -/
theorem degree_eq_neighbors_length {G : Graph} {n : String}
    (h : ∀ e ∈ G.edges, ¬(e.1 = n ∧ e.2 = n)) :
    G.degree n = (G.neighbors n).length := by
  unfold Graph.degree Graph.neighbors
  have main : ∀ es : List (String × String), (∀ e ∈ es, ¬(e.1 = n ∧ e.2 = n)) →
      (es.map fun e =>
        if e.1 = n ∧ e.2 = n then 2 else if e.1 = n ∨ e.2 = n then 1 else 0).sum
      = (es.filterMap fun e =>
          if e.1 = n then some e.2 else if e.2 = n then some e.1 else none).length := by
    intro es
    induction es with
    | nil => intro _; rfl
    | cons e es ih =>
      intro hes
      rw [List.map_cons, List.sum_cons, List.filterMap_cons]
      have hme := hes e (List.mem_cons_self e es)
      have hrest := ih fun e' he' => hes e' (List.mem_cons_of_mem _ he')
      by_cases h1 : e.1 = n
      · rw [if_neg hme, if_pos (Or.inl h1), if_pos h1]
        rw [hrest, List.length_cons]
        omega
      · by_cases h2 : e.2 = n
        · rw [if_neg hme, if_pos (Or.inr h2), if_neg h1, if_pos h2]
          rw [hrest, List.length_cons]
          omega
        · rw [if_neg hme, if_neg (fun hc => hc.elim h1 h2), if_neg h1, if_neg h2]
          simp [hrest]
  exact main G.edges h

/-- In a well-formed graph where `n` is adjacent to every other node, the
adjacency list of `n` has exactly `N - 1` entries. -/
theorem neighbors_length_of_adjacent_to_all {G : Graph} {n : String}
    (hnodup : G.nodeOrder.Nodup) (hdist : edgesDistinct G) (hloop : noSelfLoops G)
    (hvalid : edgesValid G) (hn : n ∈ G.nodeOrder)
    (hall : ∀ m ∈ G.nodeOrder, m ≠ n → G.hasEdge n m = true) :
    (G.neighbors n).length = G.nodeOrder.length - 1 := by
  have hnb : (G.neighbors n).Nodup := neighbors_nodup hdist n
  have hmem : ∀ m, m ∈ G.neighbors n ↔ m ∈ G.nodeOrder ∧ m ≠ n := by
    intro m
    constructor
    · intro hm
      rw [mem_neighbors, hasEdge_iff] at hm
      obtain ⟨e, he, hp⟩ := hm
      have hv := hvalid e he
      have hl := hloop e he
      rcases hp with ⟨h1, h2⟩ | ⟨h1, h2⟩
      · exact ⟨h2.symm ▸ hv.2, fun hmn => hl (by rw [← h1, ← h2, hmn])⟩
      · exact ⟨h2.symm ▸ hv.1, fun hmn => hl (by rw [← h1, ← h2, hmn])⟩
    · rintro ⟨hm, hmn⟩
      rw [mem_neighbors]
      exact hall m hm hmn
  have h1 : (G.neighbors n).toFinset = G.nodeOrder.toFinset.erase n := by
    ext m
    simp only [List.mem_toFinset, Finset.mem_erase, hmem m]
    exact and_comm
  have h2 : (G.neighbors n).length = (G.neighbors n).toFinset.card :=
    (List.toFinset_card_of_nodup hnb).symm
  have h3 : G.nodeOrder.length = G.nodeOrder.toFinset.card :=
    (List.toFinset_card_of_nodup hnodup).symm
  rw [h2, h1, Finset.card_erase_of_mem (List.mem_toFinset.mpr hn), h3]

/-- C6 (amended): for every graph, degree centrality is degree / (N − 1) when
N ≥ 2 — in particular 0 for an isolated node and 1 for a node adjacent to
all other nodes — but for N < 2 networkx `degree_centrality` reports `1` for
the sole node, not `0` as claimed. -/
theorem C6_amended_degree_centrality :
    (∀ (G : Graph) (n : String), 2 ≤ G.nodeOrder.length →
        degree_centrality G n = (G.degree n : ℚ) / ((G.nodeOrder.length : ℚ) - 1))
    ∧ (∀ (G : Graph) (n : String), 2 ≤ G.nodeOrder.length →
        (∀ e ∈ G.edges, e.1 ≠ n ∧ e.2 ≠ n) → degree_centrality G n = 0)
    ∧ (∀ (G : Graph) (n : String), 2 ≤ G.nodeOrder.length → G.nodeOrder.Nodup →
        edgesDistinct G → noSelfLoops G → edgesValid G → n ∈ G.nodeOrder →
        (∀ m ∈ G.nodeOrder, m ≠ n → G.hasEdge n m = true) →
        degree_centrality G n = 1)
    ∧ (∀ (G : Graph) (n : String), G.nodeOrder.length ≤ 1 →
        degree_centrality G n = 1) := by
  refine ⟨?_, ?_, ?_, ?_⟩
  · intro G n hN
    unfold degree_centrality
    rw [if_neg (by omega)]
  · intro G n hN hiso
    unfold degree_centrality
    rw [if_neg (by omega), degree_eq_zero_of_isolated hiso]
    simp
  · intro G n hN hnodup hdist hloop hvalid hn hall
    unfold degree_centrality
    rw [if_neg (by omega)]
    rw [degree_eq_neighbors_length (fun e he hc => hloop e he (hc.1.trans hc.2.symm)),
      neighbors_length_of_adjacent_to_all hnodup hdist hloop hvalid hn hall]
    have hcast : ((G.nodeOrder.length - 1 : Nat) : ℚ) = (G.nodeOrder.length : ℚ) - 1 := by
      rw [Nat.cast_sub (by omega), Nat.cast_one]
    rw [hcast]
    have hne : ((G.nodeOrder.length : ℚ) - 1) ≠ 0 := by
      have : (2 : ℚ) ≤ (G.nodeOrder.length : ℚ) := by exact_mod_cast hN
      linarith
    exact div_self hne
  · intro G n hN
    unfold degree_centrality
    rw [if_pos hN]

/-- C6 counterexample: for the single-node graph built from a profile with no
coauthors, networkx degree centrality of the sole node is `1`, not `0`. -/
theorem C6_counterexample :
    ((create_individual_network (some ⟨"P", []⟩)).getD Graph.empty).nodeOrder = ["P"]
    ∧ degree_centrality ((create_individual_network (some ⟨"P", []⟩)).getD Graph.empty) "P" = 1
    ∧ ¬ degree_centrality ((create_individual_network (some ⟨"P", []⟩)).getD Graph.empty) "P"
        = 0 := by
  refine ⟨rfl, by decide, by decide⟩

theorem C6_witness :
    degree_centrality ((create_individual_network (some ⟨"P", ["A"]⟩)).getD Graph.empty) "P"
      = (((create_individual_network (some ⟨"P", ["A"]⟩)).getD Graph.empty).degree "P" : ℚ)
        / ((((create_individual_network (some ⟨"P", ["A"]⟩)).getD Graph.empty).nodeOrder.length : ℚ) - 1)
    ∧ degree_centrality (find_shared_connections [some ⟨"P1", []⟩, some ⟨"P2", []⟩]) "P1" = 0
    ∧ degree_centrality ((create_individual_network (some ⟨"P", ["A"]⟩)).getD Graph.empty) "P" = 1
    ∧ degree_centrality ((create_individual_network (some ⟨"P", []⟩)).getD Graph.empty) "P" = 1 := by
  refine ⟨C6_amended_degree_centrality.1 _ "P" (by decide),
    C6_amended_degree_centrality.2.1 _ "P1" (by decide) (by decide),
    C6_amended_degree_centrality.2.2.1 _ "P" (by decide) (by decide)
      (by unfold edgesDistinct; decide) (by unfold noSelfLoops; decide)
      (by unfold edgesValid; decide) (by decide) (by decide),
    C6_amended_degree_centrality.2.2.2 _ "P" (by decide)⟩

/-! ### Lemmas about `combinations2` and the `prof_coauthors` dict -/

theorem comb2_mem_both {α : Type} {l : List α} {x y : α}
    (h : (x, y) ∈ combinations2 l) : x ∈ l ∧ y ∈ l := by
  induction l with
  | nil => cases h
  | cons a t ih =>
    rw [combinations2, List.mem_append] at h
    rcases h with h | h
    · rw [List.mem_map] at h
      obtain ⟨b, hb, hxy⟩ := h
      cases hxy
      exact ⟨List.mem_cons_self _ _, List.mem_cons_of_mem _ hb⟩
    · exact ⟨List.mem_cons_of_mem _ (ih h).1, List.mem_cons_of_mem _ (ih h).2⟩

theorem comb2_of_mem {α : Type} [DecidableEq α] {l : List α} {x y : α}
    (hx : x ∈ l) (hy : y ∈ l) (hxy : x ≠ y) :
    (x, y) ∈ combinations2 l ∨ (y, x) ∈ combinations2 l := by
  induction l with
  | nil => cases hx
  | cons a t ih =>
    rw [combinations2]
    by_cases hax : a = x
    · left
      rw [List.mem_append, List.mem_map]
      exact Or.inl ⟨y, by
        rcases List.mem_cons.mp hy with h | h
        · exact absurd (hax.symm.trans h.symm) hxy
        · exact h, by rw [hax]⟩
    · by_cases hay : a = y
      · right
        rw [List.mem_append, List.mem_map]
        exact Or.inl ⟨x, by
          rcases List.mem_cons.mp hx with h | h
          · exact absurd (h.trans hay) hxy
          · exact h, by rw [hay]⟩
      · have hx' : x ∈ t := by
          rcases List.mem_cons.mp hx with h | h
          · exact absurd h.symm hax
          · exact h
        have hy' : y ∈ t := by
          rcases List.mem_cons.mp hy with h | h
          · exact absurd h.symm hay
          · exact h
        rcases ih hx' hy' with h | h
        · exact Or.inl (List.mem_append.mpr (Or.inr h))
        · exact Or.inr (List.mem_append.mpr (Or.inr h))

theorem comb2_ne {α : Type} {l : List α} (hl : l.Nodup) {x y : α}
    (h : (x, y) ∈ combinations2 l) : x ≠ y := by
  induction l with
  | nil => cases h
  | cons a t ih =>
    rw [combinations2, List.mem_append] at h
    rw [List.nodup_cons] at hl
    rcases h with h | h
    · rw [List.mem_map] at h
      obtain ⟨b, hb, hxy⟩ := h
      cases hxy
      exact fun hab => hl.1 (hab ▸ hb)
    · exact ih hl.2 h

theorem comb2_no_flip {α : Type} {l : List α} (hl : l.Nodup) {x y : α}
    (h : (x, y) ∈ combinations2 l) : (y, x) ∉ combinations2 l := by
  induction l with
  | nil => cases h
  | cons a t ih =>
    rw [List.nodup_cons] at hl
    rw [combinations2, List.mem_append] at h
    intro h'
    rw [combinations2, List.mem_append] at h'
    rcases h with h | h
    · rw [List.mem_map] at h
      obtain ⟨b, hb, hxy⟩ := h
      cases hxy
      rcases h' with h' | h'
      · rw [List.mem_map] at h'
        obtain ⟨b', hb', hxy'⟩ := h'
        cases hxy'
        exact hl.1 hb'
      · exact hl.1 (comb2_mem_both h').2
    · rcases h' with h' | h'
      · rw [List.mem_map] at h'
        obtain ⟨b', hb', hxy'⟩ := h'
        cases hxy'
        exact hl.1 (comb2_mem_both h).2
      · exact ih hl.2 h h'

theorem comb2_nodup {α : Type} {l : List α} (hl : l.Nodup) :
    (combinations2 l).Nodup := by
  induction l with
  | nil => exact List.nodup_nil
  | cons a t ih =>
    rw [List.nodup_cons] at hl
    rw [combinations2, List.nodup_append]
    refine ⟨List.Nodup.map (fun b b' hb => by cases hb; rfl) hl.2, ih hl.2, ?_⟩
    intro pr hpr hpr'
    rw [List.mem_map] at hpr
    obtain ⟨b, _, rfl⟩ := hpr
    exact hl.1 (comb2_mem_both hpr').1

/-- A list whose two given members differ has at least two entries. -/
theorem one_lt_length_of_two_mem {α : Type} {l : List α} {x y : α}
    (hx : x ∈ l) (hy : y ∈ l) (hxy : x ≠ y) : 1 < l.length := by
  cases l with
  | nil => cases hx
  | cons a t =>
    cases t with
    | nil =>
      rw [List.mem_singleton] at hx hy
      exact absurd (hx.trans hy.symm) hxy
    | cons b t' => simp [Nat.lt_add_one_iff]

theorem dictInsert_of_fresh {d : List (String × List String)} {k : String}
    (h : ∀ kv ∈ d, kv.1 ≠ k) (v : List String) :
    dictInsert d k v = d ++ [(k, v)] := by
  unfold dictInsert
  rw [if_neg]
  simp only [List.any_eq_true, decide_eq_true_eq, not_exists]
  exact fun kv hkv => h kv hkv.1 hkv.2

/-- Every entry of `dictInsert d k v` is an old entry or the new pair. -/
theorem mem_dictInsert {d : List (String × List String)} {k : String}
    {v : List String} {kv : String × List String} (h : kv ∈ dictInsert d k v) :
    kv ∈ d ∨ kv = (k, v) := by
  unfold dictInsert at h
  split at h
  · rw [List.mem_map] at h
    obtain ⟨kv', hkv', heq⟩ := h
    by_cases hk : kv'.1 = k
    · rw [if_pos hk] at heq
      exact Or.inr heq.symm
    · rw [if_neg hk] at heq
      exact Or.inl (heq ▸ hkv')
  · rw [List.mem_append, List.mem_singleton] at h
    exact h

/-- `dictInsert` keeps the key list duplicate free. -/
theorem dictInsert_keys_nodup {d : List (String × List String)} {k : String}
    {v : List String} (h : (d.map Prod.fst).Nodup) :
    ((dictInsert d k v).map Prod.fst).Nodup := by
  unfold dictInsert
  split
  · have : (d.map fun kv => if kv.1 = k then (k, v) else kv).map Prod.fst = d.map Prod.fst := by
      rw [List.map_map]
      apply List.map_congr_left
      intro kv _
      by_cases hk : kv.1 = k
      · simp [hk]
      · simp [hk]
    rw [this]
    exact h
  · rename_i hno
    rw [List.map_append]
    rw [List.nodup_append]
    refine ⟨h, List.nodup_singleton _, ?_⟩
    intro a ha hb
    rw [List.map_singleton, List.mem_singleton] at hb
    subst hb
    rw [List.mem_map] at ha
    obtain ⟨kv, hkv, hk⟩ := ha
    rw [List.any_eq_true] at hno
    exact hno ⟨kv, hkv, by simp [hk]⟩

/-! ### Phase 1 of `find_shared_connections` -/

def profNames (ps : List Profile) : List String := ps.map Profile.name

/-- The `prof_coauthors` dict contents when all professor names are distinct. -/
def profDict (ps : List Profile) : List (String × List String) :=
  ps.map fun p => (p.name, p.coauthors.dedup)

/-- The graph component of phase 1 ignores the dict entirely. -/
theorem sharedPhase1_snd_go (ps : List Profile) :
    ∀ (d : List (String × List String)) (G : Graph),
    ((ps.map some).foldl sharedPhase1Step (d, G)).2
      = ps.foldl (fun H p => H.addNode p.name "professor") G := by
  induction ps with
  | nil => intro d G; rfl
  | cons p ps ih => intro d G; exact ih _ _

theorem profNodesFold_attr (ps : List Profile) :
    ∀ (G : Graph) (n : String),
    (ps.foldl (fun H p => H.addNode p.name "professor") G).attr n
      = if n ∈ profNames ps then some "professor" else G.attr n := by
  induction ps with
  | nil => intro G n; simp [profNames]
  | cons p ps ih =>
    intro G n
    rw [List.foldl_cons, ih]
    by_cases h1 : n ∈ profNames ps
    · rw [if_pos h1, if_pos (by simp [profNames]; simp [profNames] at h1; tauto)]
    · rw [if_neg h1, addNode_attr]
      by_cases h2 : n = p.name
      · rw [if_pos h2, if_pos (by simp [profNames, h2])]
      · rw [if_neg h2, if_neg (by simp [profNames]; simp [profNames] at h1; tauto)]

theorem profNodesFold_mem (ps : List Profile) :
    ∀ (G : Graph) (n : String),
    n ∈ (ps.foldl (fun H p => H.addNode p.name "professor") G).nodeOrder
      ↔ n ∈ profNames ps ∨ n ∈ G.nodeOrder := by
  induction ps with
  | nil => intro G n; simp [profNames]
  | cons p ps ih =>
    intro G n
    rw [List.foldl_cons, ih, mem_addNode]
    simp only [profNames, List.map_cons, List.mem_cons]
    tauto

theorem profNodesFold_edges (ps : List Profile) :
    ∀ (G : Graph),
    (ps.foldl (fun H p => H.addNode p.name "professor") G).edges = G.edges := by
  induction ps with
  | nil => intro G; rfl
  | cons p ps ih => intro G; rw [List.foldl_cons, ih, addNode_edges]

theorem profNodesFold_weight (ps : List Profile) :
    ∀ (G : Graph),
    (ps.foldl (fun H p => H.addNode p.name "professor") G).weight = G.weight := by
  induction ps with
  | nil => intro G; rfl
  | cons p ps ih => intro G; rw [List.foldl_cons, ih, addNode_weight]

theorem profNodesFold_nodup (ps : List Profile) :
    ∀ (G : Graph), G.nodeOrder.Nodup →
    (ps.foldl (fun H p => H.addNode p.name "professor") G).nodeOrder.Nodup := by
  induction ps with
  | nil => intro G h; exact h
  | cons p ps ih => intro G h; exact ih _ (addNode_nodup h _ _)

/-- With pairwise-distinct professor names the dict is exactly one entry per
profile, in input order. -/
theorem sharedPhase1_fst_go (ps : List Profile) :
    ∀ (d : List (String × List String)) (G : Graph),
    (∀ p ∈ ps, ∀ kv ∈ d, kv.1 ≠ p.name) → (profNames ps).Nodup →
    ((ps.map some).foldl sharedPhase1Step (d, G)).1 = d ++ profDict ps := by
  induction ps with
  | nil => intro d G _ _; simp [profDict]
  | cons p ps ih =>
    intro d G hd hn
    rw [List.map_cons, List.foldl_cons]
    show ((ps.map some).foldl sharedPhase1Step
      (dictInsert d p.name p.coauthors.dedup, G.addNode p.name "professor")).1 = _
    rw [dictInsert_of_fresh (fun kv hkv => hd p (List.mem_cons_self _ _) kv hkv) _]
    simp only [profNames, List.map_cons, List.nodup_cons] at hn
    have hstep : ∀ q ∈ ps, ∀ kv ∈ d ++ [(p.name, p.coauthors.dedup)], kv.1 ≠ q.name := by
      intro q hq kv hkv
      rw [List.mem_append, List.mem_singleton] at hkv
      rcases hkv with hkv | rfl
      · exact hd q (List.mem_cons_of_mem _ hq) kv hkv
      · intro hc
        have hc' : p.name = q.name := hc
        exact hn.1 (by rw [hc']; exact List.mem_map_of_mem Profile.name hq)
    rw [ih _ _ hstep hn.2]
    simp [profDict]

/-- Every dict entry comes from some input record. -/
theorem sharedPhase1_fst_entries (ps : List Profile) :
    ∀ (d : List (String × List String)) (G : Graph),
    ∀ kv ∈ ((ps.map some).foldl sharedPhase1Step (d, G)).1,
    kv ∈ d ∨ ∃ p ∈ ps, kv = (p.name, p.coauthors.dedup) := by
  induction ps with
  | nil => intro d G kv h; exact Or.inl h
  | cons p ps ih =>
    intro d G kv h
    rw [List.map_cons, List.foldl_cons] at h
    have h' := ih (dictInsert d p.name p.coauthors.dedup)
      (G.addNode p.name "professor") kv h
    rcases h' with h' | ⟨q, hq, rfl⟩
    · rcases mem_dictInsert h' with h'' | rfl
      · exact Or.inl h''
      · exact Or.inr ⟨p, List.mem_cons_self _ _, rfl⟩
    · exact Or.inr ⟨q, List.mem_cons_of_mem _ hq, rfl⟩

/-- The dict keys are always duplicate free. -/
theorem sharedPhase1_fst_keys_nodup (ps : List Profile) :
    ∀ (d : List (String × List String)) (G : Graph), (d.map Prod.fst).Nodup →
    ((((ps.map some).foldl sharedPhase1Step (d, G)).1).map Prod.fst).Nodup := by
  induction ps with
  | nil => intro d G h; exact h
  | cons p ps ih =>
    intro d G h
    rw [List.map_cons, List.foldl_cons]
    exact ih _ _ (dictInsert_keys_nodup h)

/-! ### The inner loop of `find_shared_connections` -/

theorem chainStep_attr (p q : String) (H : Graph) (c n : String) :
    (addSharedChainStep p q H c).attr n = if n = c then some "shared_coauthor" else H.attr n := by
  unfold addSharedChainStep
  rw [addEdgePlain_attr, addEdgePlain_attr, addNode_attr]

theorem chainStep_weight (p q : String) (H : Graph) (c : String) :
    (addSharedChainStep p q H c).weight = H.weight := by
  unfold addSharedChainStep
  rw [addEdgePlain_weight, addEdgePlain_weight, addNode_weight]

theorem chainStep_mem (p q : String) (H : Graph) (c n : String)
    (hp : p ∈ H.nodeOrder) (hq : q ∈ H.nodeOrder) :
    (n ∈ (addSharedChainStep p q H c).nodeOrder ↔ n ∈ H.nodeOrder ∨ n = c) := by
  unfold addSharedChainStep
  rw [mem_addEdgePlain, mem_addEdgePlain, mem_addNode]
  constructor
  · rintro (((h | h) | (h | h)) | (h | h))
    · exact Or.inl h
    · exact Or.inr h
    · exact Or.inl (by rw [h]; exact hp)
    · exact Or.inr h
    · exact Or.inl (by rw [h]; exact hq)
    · exact Or.inr h
  · rintro (h | h)
    · exact Or.inl (Or.inl (Or.inl h))
    · exact Or.inl (Or.inl (Or.inr h))

theorem chainStep_hasEdge (p q : String) (H : Graph) (c a b : String) :
    ((addSharedChainStep p q H c).hasEdge a b = true ↔
      H.hasEdge a b = true ∨ uPair a b p c ∨ uPair a b q c) := by
  unfold addSharedChainStep
  rw [hasEdge_addEdgePlain, hasEdge_addEdgePlain]
  have h3 : ((H.addNode c "shared_coauthor").hasEdge a b) = H.hasEdge a b :=
    hasEdge_congr (addNode_edges H c "shared_coauthor") a b
  rw [h3]
  tauto

theorem chain_attr (p q : String) (cs : List String) :
    ∀ (H : Graph) (n : String),
    ((cs.foldl (addSharedChainStep p q) H).attr n
      = if n ∈ cs then some "shared_coauthor" else H.attr n) := by
  induction cs with
  | nil => intro H n; simp
  | cons c cs ih =>
    intro H n
    rw [List.foldl_cons, ih, chainStep_attr]
    by_cases h1 : n ∈ cs
    · rw [if_pos h1, if_pos (List.mem_cons_of_mem _ h1)]
    · rw [if_neg h1]
      by_cases h2 : n = c
      · rw [if_pos h2, if_pos (List.mem_cons.mpr (Or.inl h2))]
      · rw [if_neg h2, if_neg (by simp [h1, h2])]

theorem chain_weight (p q : String) (cs : List String) :
    ∀ (H : Graph), (cs.foldl (addSharedChainStep p q) H).weight = H.weight := by
  induction cs with
  | nil => intro H; rfl
  | cons c cs ih =>
    intro H
    rw [List.foldl_cons, ih, chainStep_weight]

theorem chain_mem (p q : String) (cs : List String) :
    ∀ (H : Graph) (n : String), p ∈ H.nodeOrder → q ∈ H.nodeOrder →
    (n ∈ (cs.foldl (addSharedChainStep p q) H).nodeOrder ↔ n ∈ H.nodeOrder ∨ n ∈ cs) := by
  induction cs with
  | nil => intro H n _ _; simp
  | cons c cs ih =>
    intro H n hp hq
    rw [List.foldl_cons, ih _ _
      ((chainStep_mem p q H c p hp hq).mpr (Or.inl hp))
      ((chainStep_mem p q H c q hp hq).mpr (Or.inl hq)),
      chainStep_mem p q H c n hp hq]
    simp only [List.mem_cons]
    tauto

theorem chain_hasEdge (p q : String) (cs : List String) :
    ∀ (H : Graph) (a b : String),
    ((cs.foldl (addSharedChainStep p q) H).hasEdge a b = true ↔
      H.hasEdge a b = true ∨ ∃ c ∈ cs, uPair a b p c ∨ uPair a b q c) := by
  induction cs with
  | nil => intro H a b; simp
  | cons c cs ih =>
    intro H a b
    rw [List.foldl_cons, ih, chainStep_hasEdge]
    simp only [List.mem_cons]
    constructor
    · rintro ((h | h | h) | ⟨c', hc', h⟩)
      · exact Or.inl h
      · exact Or.inr ⟨c, Or.inl rfl, Or.inl h⟩
      · exact Or.inr ⟨c, Or.inl rfl, Or.inr h⟩
      · exact Or.inr ⟨c', Or.inr hc', h⟩
    · rintro (h | ⟨c', hc' | hc', h⟩)
      · exact Or.inl (Or.inl h)
      · subst hc'
        exact Or.inl (Or.inr h)
      · exact Or.inr ⟨c', hc', h⟩

/-! ### One pair step of `find_shared_connections` -/

theorem interOf_spec (x y : String × List String) (n : String) :
    n ∈ interOf (x, y) ↔ n ∈ x.2 ∧ n ∈ y.2 := by
  unfold interOf
  rw [List.mem_filter]
  simp

theorem pairStep_attr (G : Graph) (pr : (String × List String) × (String × List String))
    (n : String) :
    (sharedPairStep G pr).attr n =
      if n ∈ interOf pr then some "shared_coauthor" else G.attr n := by
  unfold sharedPairStep
  by_cases h : (interOf pr).isEmpty
  · rw [if_pos h]
    rw [List.isEmpty_iff] at h
    rw [if_neg (by rw [h]; exact List.not_mem_nil n)]
  · rw [if_neg h, chain_attr, addEdgeW_attr]

theorem pairStep_weight (G : Graph) (pr : (String × List String) × (String × List String))
    (a b : String) :
    (sharedPairStep G pr).weight a b =
      if ¬ (interOf pr).isEmpty ∧ uPair a b pr.1.1 pr.2.1
      then some (interOf pr).length else G.weight a b := by
  unfold sharedPairStep
  by_cases h : (interOf pr).isEmpty
  · rw [if_pos h, if_neg (by tauto)]
  · rw [if_neg h, chain_weight, addEdgeW_weight]
    by_cases h2 : uPair a b pr.1.1 pr.2.1
    · rw [if_pos h2, if_pos ⟨h, h2⟩]
    · rw [if_neg h2, if_neg (by tauto)]

theorem pairStep_mem (G : Graph) (pr : (String × List String) × (String × List String))
    (n : String) (hp : pr.1.1 ∈ G.nodeOrder) (hq : pr.2.1 ∈ G.nodeOrder) :
    (n ∈ (sharedPairStep G pr).nodeOrder ↔ n ∈ G.nodeOrder ∨ n ∈ interOf pr) := by
  unfold sharedPairStep
  by_cases h : (interOf pr).isEmpty
  · rw [if_pos h]
    rw [List.isEmpty_iff] at h
    rw [h]
    simp
  · rw [if_neg h, chain_mem _ _ _ _ _
      (mem_addEdgeW.mpr (Or.inl hp)) (mem_addEdgeW.mpr (Or.inl hq)), mem_addEdgeW]
    constructor
    · rintro ((h' | h' | h') | h')
      · exact Or.inl h'
      · exact Or.inl (by rw [h']; exact hp)
      · exact Or.inl (by rw [h']; exact hq)
      · exact Or.inr h'
    · rintro (h' | h')
      · exact Or.inl (Or.inl h')
      · exact Or.inr h'

theorem pairStep_hasEdge (G : Graph) (pr : (String × List String) × (String × List String))
    (a b : String) :
    ((sharedPairStep G pr).hasEdge a b = true ↔
      G.hasEdge a b = true ∨ (¬ (interOf pr).isEmpty ∧
        (uPair a b pr.1.1 pr.2.1 ∨ ∃ c ∈ interOf pr, uPair a b pr.1.1 c ∨ uPair a b pr.2.1 c))) := by
  unfold sharedPairStep
  by_cases h : (interOf pr).isEmpty
  · rw [if_pos h]
    tauto
  · rw [if_neg h, chain_hasEdge, hasEdge_addEdgeW]
    constructor
    · rintro ((h1 | h1) | ⟨c, hc, h1⟩)
      · exact Or.inl h1
      · exact Or.inr ⟨h, Or.inl h1⟩
      · exact Or.inr ⟨h, Or.inr ⟨c, hc, h1⟩⟩
    · rintro (h1 | ⟨-, h1 | ⟨c, hc, h1⟩⟩)
      · exact Or.inl (Or.inl h1)
      · exact Or.inl (Or.inr h1)
      · exact Or.inr ⟨c, hc, h1⟩

/-! ### The pair loop of `find_shared_connections` -/

theorem phase2_attr (L : List ((String × List String) × (String × List String))) :
    ∀ (G : Graph) (n : String),
    ((L.foldl sharedPairStep G).attr n
      = if ∃ pr ∈ L, n ∈ interOf pr then some "shared_coauthor" else G.attr n) := by
  induction L with
  | nil => intro G n; simp
  | cons pr L ih =>
    intro G n
    rw [List.foldl_cons, ih, pairStep_attr]
    by_cases h1 : ∃ pr' ∈ L, n ∈ interOf pr'
    · rw [if_pos h1, if_pos ⟨h1.choose, List.mem_cons_of_mem _ h1.choose_spec.1, h1.choose_spec.2⟩]
    · rw [if_neg h1]
      by_cases h2 : n ∈ interOf pr
      · rw [if_pos h2, if_pos ⟨pr, List.mem_cons_self _ _, h2⟩]
      · rw [if_neg h2, if_neg ?_]
        rintro ⟨pr', hpr', hn⟩
        rcases List.mem_cons.mp hpr' with rfl | hpr'
        · exact h2 hn
        · exact h1 ⟨pr', hpr', hn⟩

theorem phase2_mem (L : List ((String × List String) × (String × List String))) :
    ∀ (G : Graph) (n : String),
    (∀ pr ∈ L, pr.1.1 ∈ G.nodeOrder ∧ pr.2.1 ∈ G.nodeOrder) →
    (n ∈ (L.foldl sharedPairStep G).nodeOrder ↔ n ∈ G.nodeOrder ∨ ∃ pr ∈ L, n ∈ interOf pr) := by
  induction L with
  | nil => intro G n _; simp
  | cons pr L ih =>
    intro G n hpre
    have hmono : ∀ m, m ∈ G.nodeOrder → m ∈ (sharedPairStep G pr).nodeOrder := by
      intro m hm
      exact (pairStep_mem G pr m (hpre pr (List.mem_cons_self _ _)).1
        (hpre pr (List.mem_cons_self _ _)).2).mpr (Or.inl hm)
    rw [List.foldl_cons, ih _ _ (fun pr' hpr' =>
      ⟨hmono _ (hpre pr' (List.mem_cons_of_mem _ hpr')).1,
       hmono _ (hpre pr' (List.mem_cons_of_mem _ hpr')).2⟩),
      pairStep_mem G pr n (hpre pr (List.mem_cons_self _ _)).1
        (hpre pr (List.mem_cons_self _ _)).2]
    simp only [List.mem_cons]
    constructor
    · rintro ((h | h) | ⟨pr', hpr', h⟩)
      · exact Or.inl h
      · exact Or.inr ⟨pr, Or.inl rfl, h⟩
      · exact Or.inr ⟨pr', Or.inr hpr', h⟩
    · rintro (h | ⟨pr', rfl | hpr', h⟩)
      · exact Or.inl (Or.inl h)
      · exact Or.inl (Or.inr h)
      · exact Or.inr ⟨pr', hpr', h⟩

theorem phase2_hasEdge (L : List ((String × List String) × (String × List String))) :
    ∀ (G : Graph) (a b : String),
    ((L.foldl sharedPairStep G).hasEdge a b = true ↔
      G.hasEdge a b = true ∨ ∃ pr ∈ L, ¬ (interOf pr).isEmpty ∧
        (uPair a b pr.1.1 pr.2.1 ∨ ∃ c ∈ interOf pr, uPair a b pr.1.1 c ∨ uPair a b pr.2.1 c)) := by
  induction L with
  | nil => intro G a b; simp
  | cons pr L ih =>
    intro G a b
    rw [List.foldl_cons, ih, pairStep_hasEdge]
    simp only [List.mem_cons]
    constructor
    · rintro ((h | h) | ⟨pr', hpr', h⟩)
      · exact Or.inl h
      · exact Or.inr ⟨pr, Or.inl rfl, h⟩
      · exact Or.inr ⟨pr', Or.inr hpr', h⟩
    · rintro (h | ⟨pr', rfl | hpr', h⟩)
      · exact Or.inl (Or.inl h)
      · exact Or.inl (Or.inr h)
      · exact Or.inr ⟨pr', hpr', h⟩

theorem phase2_weight_none (L : List ((String × List String) × (String × List String))) :
    ∀ (G : Graph) (a b : String),
    (∀ pr ∈ L, ¬ uPair a b pr.1.1 pr.2.1) →
    (L.foldl sharedPairStep G).weight a b = G.weight a b := by
  induction L with
  | nil => intro G a b _; rfl
  | cons pr L ih =>
    intro G a b hno
    rw [List.foldl_cons, ih _ _ _ (fun pr' hpr' => hno pr' (List.mem_cons_of_mem _ hpr')),
      pairStep_weight,
      if_neg (fun hc => hno pr (List.mem_cons_self _ _) hc.2)]

theorem phase2_weight_at {L : List ((String × List String) × (String × List String))}
    {L1 L2 : List ((String × List String) × (String × List String))}
    {pr : (String × List String) × (String × List String)} {a b : String}
    (hL : L = L1 ++ pr :: L2) (hp : uPair a b pr.1.1 pr.2.1)
    (h1 : ∀ pr' ∈ L1, ¬ uPair a b pr'.1.1 pr'.2.1)
    (h2 : ∀ pr' ∈ L2, ¬ uPair a b pr'.1.1 pr'.2.1) (G : Graph) :
    (L.foldl sharedPairStep G).weight a b =
      if (interOf pr).isEmpty then G.weight a b else some (interOf pr).length := by
  subst hL
  rw [List.foldl_append, List.foldl_cons]
  rw [phase2_weight_none L2 _ _ _ h2, pairStep_weight, phase2_weight_none L1 _ _ _ h1]
  by_cases h : (interOf pr).isEmpty
  · rw [if_neg (by tauto), if_pos h]
  · rw [if_pos ⟨h, hp⟩, if_neg h]

/-! ### Record-level characterization of `find_shared_connections` -/

/-- The size of the coauthor-set intersection of two records (the `weight`
the spec prescribes for a professor–professor edge). -/
def interCount (p q : Profile) : Nat :=
  (p.coauthors.dedup.filter fun c => c ∈ q.coauthors).length

/-- `n` lies in the coauthor intersection of two distinct professors. -/
def sharedInterSpec (ps : List Profile) (n : String) : Prop :=
  ∃ p ∈ ps, ∃ q ∈ ps, p.name ≠ q.name ∧ n ∈ p.coauthors ∧ n ∈ q.coauthors

instance (ps : List Profile) (n : String) : Decidable (sharedInterSpec ps n) := by
  unfold sharedInterSpec
  infer_instance

theorem profDict_keys (ps : List Profile) :
    (profDict ps).map Prod.fst = profNames ps := by
  unfold profDict profNames
  rw [List.map_map]
  rfl

theorem profDict_nodup {ps : List Profile} (hn : (profNames ps).Nodup) :
    (profDict ps).Nodup := by
  have := profDict_keys ps ▸ hn
  exact List.Nodup.of_map _ this

theorem interOf_entries (p q : Profile) :
    interOf ((p.name, p.coauthors.dedup), (q.name, q.coauthors.dedup))
      = p.coauthors.dedup.filter fun c => c ∈ q.coauthors := by
  unfold interOf
  apply List.filter_congr
  intro c _
  simp [List.mem_dedup]

theorem interCount_card (p q : Profile) :
    interCount p q = (p.coauthors.toFinset ∩ q.coauthors.toFinset).card := by
  unfold interCount
  have hnd : (p.coauthors.dedup.filter fun c => decide (c ∈ q.coauthors)).Nodup :=
    List.Nodup.filter _ (List.nodup_dedup _)
  rw [← List.toFinset_card_of_nodup hnd, List.toFinset_filter]
  congr 1
  ext c
  simp [Finset.mem_filter, List.mem_toFinset, List.mem_dedup, and_comm]

theorem interCount_comm (p q : Profile) : interCount p q = interCount q p := by
  rw [interCount_card, interCount_card, Finset.inter_comm]

theorem interCount_pos_iff (p q : Profile) :
    ((interCount p q ≠ 0) ↔ ∃ c, c ∈ p.coauthors ∧ c ∈ q.coauthors) := by
  unfold interCount
  rw [ne_eq, List.length_eq_zero]
  constructor
  · intro h
    rcases List.exists_mem_of_ne_nil _ h with ⟨c, hc⟩
    rw [List.mem_filter] at hc
    exact ⟨c, List.mem_dedup.mp hc.1, by simpa using hc.2⟩
  · rintro ⟨c, hcp, hcq⟩ h
    rw [List.eq_nil_iff_forall_not_mem] at h
    exact h c (List.mem_filter.mpr ⟨List.mem_dedup.mpr hcp, by simpa using hcq⟩)

/-- Membership in some pair intersection of the dict equals `sharedInterSpec`
when professor names are distinct. -/
theorem sharedPairs_bridge {ps : List Profile} (hn : (profNames ps).Nodup) (n : String) :
    (∃ pr ∈ combinations2 (profDict ps), n ∈ interOf pr) ↔ sharedInterSpec ps n := by
  constructor
  · rintro ⟨⟨x, y⟩, hpr, hmem⟩
    have hxy := comb2_mem_both hpr
    obtain ⟨p, hp, rfl⟩ := List.mem_map.mp hxy.1
    obtain ⟨q, hq, rfl⟩ := List.mem_map.mp hxy.2
    have hne : p.name ≠ q.name := by
      intro hc
      have hkeys : ((profDict ps).map Prod.fst).Nodup := by
        rw [profDict_keys]
        exact hn
      have := List.inj_on_of_nodup_map hkeys hxy.1 hxy.2 hc
      exact comb2_ne (profDict_nodup hn) hpr this
    rw [interOf_spec] at hmem
    exact ⟨p, hp, q, hq, hne,
      List.mem_dedup.mp hmem.1, List.mem_dedup.mp hmem.2⟩
  · rintro ⟨p, hp, q, hq, hne, hnp, hnq⟩
    have hep : (p.name, p.coauthors.dedup) ∈ profDict ps :=
      List.mem_map_of_mem _ hp
    have heq : (q.name, q.coauthors.dedup) ∈ profDict ps :=
      List.mem_map_of_mem _ hq
    have hne' : (p.name, p.coauthors.dedup) ≠ (q.name, q.coauthors.dedup) :=
      fun hc => hne (congrArg Prod.fst hc)
    rcases comb2_of_mem hep heq hne' with h | h
    · exact ⟨_, h, (interOf_spec _ _ n).mpr
        ⟨List.mem_dedup.mpr hnp, List.mem_dedup.mpr hnq⟩⟩
    · exact ⟨_, h, (interOf_spec _ _ n).mpr
        ⟨List.mem_dedup.mpr hnq, List.mem_dedup.mpr hnp⟩⟩

theorem sharedPhase1_fst (ps : List Profile) (hn : (profNames ps).Nodup) :
    (sharedPhase1 (ps.map some)).1 = profDict ps :=
  sharedPhase1_fst_go ps [] Graph.empty
    (fun _ _ kv hkv => absurd hkv (List.not_mem_nil kv)) hn

theorem hasEdge_of_edges_nil {G : Graph} (h : G.edges = []) (a b : String) :
    G.hasEdge a b = false := by
  unfold Graph.hasEdge
  rw [h]
  rfl

theorem sharedPhase1_attr (ps : List Profile) (n : String) :
    (sharedPhase1 (ps.map some)).2.attr n
      = if n ∈ profNames ps then some "professor" else none := by
  show ((ps.map some).foldl sharedPhase1Step ([], Graph.empty)).2.attr n = _
  rw [sharedPhase1_snd_go, profNodesFold_attr]
  rfl

theorem sharedPhase1_mem (ps : List Profile) (n : String) :
    n ∈ (sharedPhase1 (ps.map some)).2.nodeOrder ↔ n ∈ profNames ps := by
  show n ∈ ((ps.map some).foldl sharedPhase1Step ([], Graph.empty)).2.nodeOrder ↔ _
  rw [sharedPhase1_snd_go, profNodesFold_mem]
  simp [Graph.empty]

theorem sharedPhase1_weight (ps : List Profile) (a b : String) :
    (sharedPhase1 (ps.map some)).2.weight a b = none := by
  show ((ps.map some).foldl sharedPhase1Step ([], Graph.empty)).2.weight a b = none
  rw [sharedPhase1_snd_go, profNodesFold_weight]
  rfl

theorem sharedPhase1_edges (ps : List Profile) :
    (sharedPhase1 (ps.map some)).2.edges = [] := by
  show ((ps.map some).foldl sharedPhase1Step ([], Graph.empty)).2.edges = []
  rw [sharedPhase1_snd_go, profNodesFold_edges]
  rfl

/-- Node classification of the Shared-Connections graph: shared coauthors of
two distinct professors are `shared_coauthor` (overriding any earlier
classification), remaining professor names are `professor`, everything else
is no node / has no classification. -/
theorem shared_attr_spec {ps : List Profile} (hn : (profNames ps).Nodup) (n : String) :
    (find_shared_connections (ps.map some)).attr n
      = if sharedInterSpec ps n then some "shared_coauthor"
        else if n ∈ profNames ps then some "professor" else none := by
  unfold find_shared_connections
  rw [phase2_attr, sharedPhase1_fst ps hn, sharedPhase1_attr]
  by_cases h : sharedInterSpec ps n
  · rw [if_pos ((sharedPairs_bridge hn n).mpr h), if_pos h]
  · rw [if_neg (fun hc => h ((sharedPairs_bridge hn n).mp hc)), if_neg h]

/-- Node membership of the Shared-Connections graph. -/
theorem shared_mem_spec {ps : List Profile} (hn : (profNames ps).Nodup) (n : String) :
    (n ∈ (find_shared_connections (ps.map some)).nodeOrder ↔
      n ∈ profNames ps ∨ sharedInterSpec ps n) := by
  unfold find_shared_connections
  rw [phase2_mem _ _ _ ?_, sharedPhase1_mem, sharedPhase1_fst ps hn, sharedPairs_bridge hn n]
  intro pr hpr
  rw [sharedPhase1_fst ps hn] at hpr
  have h := comb2_mem_both hpr
  constructor
  · rw [sharedPhase1_mem, ← profDict_keys]
    exact List.mem_map_of_mem Prod.fst h.1
  · rw [sharedPhase1_mem, ← profDict_keys]
    exact List.mem_map_of_mem Prod.fst h.2

/-- Edge membership of the Shared-Connections graph: the professor–professor
edges of pairs with non-empty coauthor intersection, and the edges from each
professor of such a pair to each shared coauthor. -/
theorem shared_hasEdge_spec {ps : List Profile} (hn : (profNames ps).Nodup) (a b : String) :
    ((find_shared_connections (ps.map some)).hasEdge a b = true ↔
      ∃ p ∈ ps, ∃ q ∈ ps, p.name ≠ q.name ∧
        (uPair a b p.name q.name ∧ (∃ c, c ∈ p.coauthors ∧ c ∈ q.coauthors)
          ∨ ∃ c, (c ∈ p.coauthors ∧ c ∈ q.coauthors) ∧ (uPair a b p.name c ∨ uPair a b q.name c))) := by
  unfold find_shared_connections
  rw [phase2_hasEdge, hasEdge_of_edges_nil (sharedPhase1_edges ps), sharedPhase1_fst ps hn]
  simp only [Bool.false_eq_true, false_or]
  constructor
  · rintro ⟨⟨x, y⟩, hpr, hne, hcase⟩
    have hxy := comb2_mem_both hpr
    obtain ⟨p, hp, rfl⟩ := List.mem_map.mp hxy.1
    obtain ⟨q, hq, rfl⟩ := List.mem_map.mp hxy.2
    have hnames : p.name ≠ q.name := by
      intro hc
      have hkeys : ((profDict ps).map Prod.fst).Nodup := by
        rw [profDict_keys]
        exact hn
      exact comb2_ne (profDict_nodup hn) hpr
        (List.inj_on_of_nodup_map hkeys hxy.1 hxy.2 hc)
    have hex : ∃ c, c ∈ p.coauthors ∧ c ∈ q.coauthors := by
      rcases List.exists_mem_of_ne_nil _ (by simpa [List.isEmpty_iff] using hne) with ⟨c, hc⟩
      rw [interOf_spec] at hc
      exact ⟨c, List.mem_dedup.mp hc.1, List.mem_dedup.mp hc.2⟩
    refine ⟨p, hp, q, hq, hnames, ?_⟩
    rcases hcase with h | ⟨c, hc, h⟩
    · exact Or.inl ⟨h, hex⟩
    · rw [interOf_spec] at hc
      exact Or.inr ⟨c, ⟨List.mem_dedup.mp hc.1, List.mem_dedup.mp hc.2⟩, h⟩
  · rintro ⟨p, hp, q, hq, hnames, hcase⟩
    have hep : (p.name, p.coauthors.dedup) ∈ profDict ps := List.mem_map_of_mem _ hp
    have heq : (q.name, q.coauthors.dedup) ∈ profDict ps := List.mem_map_of_mem _ hq
    have hne' : (p.name, p.coauthors.dedup) ≠ (q.name, q.coauthors.dedup) :=
      fun hc => hnames (congrArg Prod.fst hc)
    have hexc : ∃ c, c ∈ p.coauthors ∧ c ∈ q.coauthors := by
      rcases hcase with ⟨_, hex⟩ | ⟨c, hc, _⟩
      · exact hex
      · exact ⟨c, hc⟩
    have hne1 : ¬ (interOf ((p.name, p.coauthors.dedup), (q.name, q.coauthors.dedup))).isEmpty := by
      obtain ⟨c, hc1, hc2⟩ := hexc
      simp only [List.isEmpty_iff]
      intro hnil
      have : c ∈ interOf ((p.name, p.coauthors.dedup), (q.name, q.coauthors.dedup)) :=
        (interOf_spec _ _ c).mpr ⟨List.mem_dedup.mpr hc1, List.mem_dedup.mpr hc2⟩
      rw [hnil] at this
      exact List.not_mem_nil c this
    have hne2 : ¬ (interOf ((q.name, q.coauthors.dedup), (p.name, p.coauthors.dedup))).isEmpty := by
      obtain ⟨c, hc1, hc2⟩ := hexc
      simp only [List.isEmpty_iff]
      intro hnil
      have : c ∈ interOf ((q.name, q.coauthors.dedup), (p.name, p.coauthors.dedup)) :=
        (interOf_spec _ _ c).mpr ⟨List.mem_dedup.mpr hc2, List.mem_dedup.mpr hc1⟩
      rw [hnil] at this
      exact List.not_mem_nil c this
    rcases comb2_of_mem hep heq hne' with hcomb | hcomb
    · refine ⟨_, hcomb, hne1, ?_⟩
      rcases hcase with ⟨h, _⟩ | ⟨c, hc, h⟩
      · exact Or.inl h
      · exact Or.inr ⟨c, (interOf_spec _ _ c).mpr
          ⟨List.mem_dedup.mpr hc.1, List.mem_dedup.mpr hc.2⟩, h⟩
    · refine ⟨_, hcomb, hne2, ?_⟩
      rcases hcase with ⟨h, _⟩ | ⟨c, hc, h⟩
      · exact Or.inl (Or.symm h)
      · exact Or.inr ⟨c, (interOf_spec _ _ c).mpr
          ⟨List.mem_dedup.mpr hc.2, List.mem_dedup.mpr hc.1⟩, h.symm⟩

/-- If no professor pair matches the unordered endpoint pair, no `weight`
attribute is ever written there. -/
theorem shared_weight_none {ps : List Profile} (hn : (profNames ps).Nodup)
    {a b : String}
    (h : ¬ ∃ p ∈ ps, ∃ q ∈ ps, p.name ≠ q.name ∧ uPair a b p.name q.name) :
    (find_shared_connections (ps.map some)).weight a b = none := by
  unfold find_shared_connections
  rw [phase2_weight_none _ _ _ _ ?_, sharedPhase1_weight]
  intro pr hpr hu
  rw [sharedPhase1_fst ps hn] at hpr
  obtain ⟨⟨x, y⟩, hxy⟩ : ∃ xy, xy = pr := ⟨pr, rfl⟩
  subst hxy
  have hmem := comb2_mem_both hpr
  obtain ⟨p, hp, rfl⟩ := List.mem_map.mp hmem.1
  obtain ⟨q, hq, rfl⟩ := List.mem_map.mp hmem.2
  have hnames : p.name ≠ q.name := by
    intro hc
    have hkeys : ((profDict ps).map Prod.fst).Nodup := by
      rw [profDict_keys]
      exact hn
    exact comb2_ne (profDict_nodup hn) hpr
      (List.inj_on_of_nodup_map hkeys hmem.1 hmem.2 hc)
  exact h ⟨p, hp, q, hq, hnames, hu⟩

/-- The weight on the edge of a professor pair equals the coauthor-set
intersection size, the edge being absent when the intersection is empty. -/
theorem shared_weight_pair {ps : List Profile} (hn : (profNames ps).Nodup)
    {p q : Profile} (hp : p ∈ ps) (hq : q ∈ ps) (hne : p.name ≠ q.name) :
    (find_shared_connections (ps.map some)).weight p.name q.name =
      if ∃ c, c ∈ p.coauthors ∧ c ∈ q.coauthors then some (interCount p q) else none := by
  have hkeys : ((profDict ps).map Prod.fst).Nodup := by
    rw [profDict_keys]
    exact hn
  have hpd := profDict_nodup hn
  have hep : (p.name, p.coauthors.dedup) ∈ profDict ps := List.mem_map_of_mem _ hp
  have heq : (q.name, q.coauthors.dedup) ∈ profDict ps := List.mem_map_of_mem _ hq
  have hne' : (p.name, p.coauthors.dedup) ≠ (q.name, q.coauthors.dedup) :=
    fun hc => hne (congrArg Prod.fst hc)
  -- any pair of the loop whose unordered keys are {p.name, q.name} is the
  -- pair of entries of p and q (in one of the two orientations)
  have huniq : ∀ pr ∈ combinations2 (profDict ps),
      uPair p.name q.name pr.1.1 pr.2.1 →
      pr = ((p.name, p.coauthors.dedup), (q.name, q.coauthors.dedup))
        ∨ pr = ((q.name, q.coauthors.dedup), (p.name, p.coauthors.dedup)) := by
    rintro ⟨x, y⟩ hpr hu
    have hmem := comb2_mem_both hpr
    rcases hu with ⟨h1, h2⟩ | ⟨h1, h2⟩
    · left
      have hx : x = (p.name, p.coauthors.dedup) :=
        List.inj_on_of_nodup_map hkeys hmem.1 hep h1.symm
      have hy : y = (q.name, q.coauthors.dedup) :=
        List.inj_on_of_nodup_map hkeys hmem.2 heq h2.symm
      rw [hx, hy]
    · right
      have hx : x = (q.name, q.coauthors.dedup) :=
        List.inj_on_of_nodup_map hkeys hmem.1 heq h2.symm
      have hy : y = (p.name, p.coauthors.dedup) :=
        List.inj_on_of_nodup_map hkeys hmem.2 hep h1.symm
      rw [hx, hy]
  have h0 : (interCount p q = 0) ↔ ¬ ∃ c, c ∈ p.coauthors ∧ c ∈ q.coauthors := by
    rw [← interCount_pos_iff]
    exact not_not.symm
  unfold find_shared_connections
  rw [sharedPhase1_fst ps hn]
  rcases comb2_of_mem hep heq hne' with hcomb | hcomb
  · obtain ⟨L1, L2, hsplit⟩ := List.append_of_mem hcomb
    have hLnodup := comb2_nodup hpd
    rw [hsplit, List.nodup_append] at hLnodup
    have hothers : ∀ pr', pr' ∈ L1 ∨ pr' ∈ L2 →
        ¬ uPair p.name q.name pr'.1.1 pr'.2.1 := by
      intro pr' hpr' hu
      have hprL : pr' ∈ combinations2 (profDict ps) := by
        rw [hsplit]
        rcases hpr' with h' | h'
        · exact List.mem_append.mpr (Or.inl h')
        · exact List.mem_append.mpr (Or.inr (List.mem_cons_of_mem _ h'))
      rcases huniq pr' hprL hu with rfl | rfl
      · rcases hpr' with h' | h'
        · exact hLnodup.2.2 h' (List.mem_cons_self _ _)
        · exact (List.nodup_cons.mp hLnodup.2.1).1 h'
      · exact comb2_no_flip hpd hcomb hprL
    rw [phase2_weight_at hsplit (uPair_refl p.name q.name)
      (fun pr' h' => hothers pr' (Or.inl h')) (fun pr' h' => hothers pr' (Or.inr h')),
      sharedPhase1_weight, interOf_entries]
    by_cases hex : ∃ c, c ∈ p.coauthors ∧ c ∈ q.coauthors
    · rw [if_pos hex, if_neg ?_]
      · rfl
      · rw [List.isEmpty_iff, ← List.length_eq_zero]
        show ¬ interCount p q = 0
        rw [h0]
        exact not_not.mpr hex
    · rw [if_neg hex, if_pos ?_]
      rw [List.isEmpty_iff, ← List.length_eq_zero]
      show interCount p q = 0
      rw [h0]
      exact hex
  · obtain ⟨L1, L2, hsplit⟩ := List.append_of_mem hcomb
    have hLnodup := comb2_nodup hpd
    rw [hsplit, List.nodup_append] at hLnodup
    have hothers : ∀ pr', pr' ∈ L1 ∨ pr' ∈ L2 →
        ¬ uPair p.name q.name pr'.1.1 pr'.2.1 := by
      intro pr' hpr' hu
      have hprL : pr' ∈ combinations2 (profDict ps) := by
        rw [hsplit]
        rcases hpr' with h' | h'
        · exact List.mem_append.mpr (Or.inl h')
        · exact List.mem_append.mpr (Or.inr (List.mem_cons_of_mem _ h'))
      rcases huniq pr' hprL hu with rfl | rfl
      · exact comb2_no_flip hpd hcomb hprL
      · rcases hpr' with h' | h'
        · exact hLnodup.2.2 h' (List.mem_cons_self _ _)
        · exact (List.nodup_cons.mp hLnodup.2.1).1 h'
    rw [phase2_weight_at hsplit (Or.inr ⟨rfl, rfl⟩)
      (fun pr' h' => hothers pr' (Or.inl h')) (fun pr' h' => hothers pr' (Or.inr h')),
      sharedPhase1_weight, interOf_entries]
    by_cases hex : ∃ c, c ∈ p.coauthors ∧ c ∈ q.coauthors
    · rw [if_pos hex, if_neg ?_]
      · rw [show (q.coauthors.dedup.filter fun c => c ∈ p.coauthors).length
            = interCount q p from rfl, interCount_comm]
      · rw [List.isEmpty_iff, ← List.length_eq_zero]
        show ¬ interCount q p = 0
        rw [interCount_comm, h0]
        exact not_not.mpr hex
    · rw [if_neg hex, if_pos ?_]
      rw [List.isEmpty_iff, ← List.length_eq_zero]
      show interCount q p = 0
      rw [interCount_comm, h0]
      exact hex

/-! ### C10 and C3: node-set characterization and permutation invariance -/

/-- C10 (amended): with pairwise-distinct professor names none of which occurs
in a coauthor set, the node set of the Shared-Connections graph is exactly
the professor names together with the union of the pairwise coauthor-set
intersections; and no node of this builder is ever classified `coauthor`. -/
theorem C10_amended_shared_node_set (ps : List Profile)
    (hn : (profNames ps).Nodup)
    (hc : ∀ p ∈ ps, ∀ q ∈ ps, p.name ∉ q.coauthors) :
    (∀ n, n ∈ (find_shared_connections (ps.map some)).nodeOrder ↔
      n ∈ profNames ps ∨ sharedInterSpec ps n)
    ∧ (∀ n, (find_shared_connections (ps.map some)).attr n ≠ some "coauthor") := by
  refine ⟨fun n => shared_mem_spec hn n, fun n => ?_⟩
  rw [shared_attr_spec hn n]
  by_cases h1 : sharedInterSpec ps n
  · rw [if_pos h1]
    simp
  · rw [if_neg h1]
    by_cases h2 : n ∈ profNames ps
    · rw [if_pos h2]
      simp
    · rw [if_neg h2]
      simp

theorem C10_witness :
    (("B" ∈ (find_shared_connections
        [some ⟨"P1", ["A", "B"]⟩, some ⟨"P2", ["B", "C"]⟩, some ⟨"P3", ["C", "A"]⟩]).nodeOrder ↔
      "B" ∈ profNames [⟨"P1", ["A", "B"]⟩, ⟨"P2", ["B", "C"]⟩, ⟨"P3", ["C", "A"]⟩]
        ∨ sharedInterSpec [⟨"P1", ["A", "B"]⟩, ⟨"P2", ["B", "C"]⟩, ⟨"P3", ["C", "A"]⟩] "B"))
    ∧ (find_shared_connections
        [some ⟨"P1", ["A", "B"]⟩, some ⟨"P2", ["B", "C"]⟩, some ⟨"P3", ["C", "A"]⟩]).attr "B"
        ≠ some "coauthor" :=
  ⟨(C10_amended_shared_node_set
      [⟨"P1", ["A", "B"]⟩, ⟨"P2", ["B", "C"]⟩, ⟨"P3", ["C", "A"]⟩]
      (by decide) (by decide)).1 "B",
   (C10_amended_shared_node_set
      [⟨"P1", ["A", "B"]⟩, ⟨"P2", ["B", "C"]⟩, ⟨"P3", ["C", "A"]⟩]
      (by decide) (by decide)).2 "B"⟩

theorem sharedInterSpec_perm {ps qs : List Profile} (h : ps.Perm qs) (n : String) :
    sharedInterSpec ps n ↔ sharedInterSpec qs n := by
  unfold sharedInterSpec
  constructor
  · rintro ⟨p, hp, q, hq, hrest⟩
    exact ⟨p, h.mem_iff.mp hp, q, h.mem_iff.mp hq, hrest⟩
  · rintro ⟨p, hp, q, hq, hrest⟩
    exact ⟨p, h.mem_iff.mpr hp, q, h.mem_iff.mpr hq, hrest⟩

/-- C3 (amended): for input lists with pairwise-distinct professor names,
permuting the input leaves node membership, node classification, edge
membership and edge weights unchanged — the identity on names is an
isomorphism of the two graphs with identical weights. -/
theorem C3_amended_permutation_invariance (ps qs : List Profile)
    (hperm : ps.Perm qs) (hn : (profNames ps).Nodup) :
    (∀ n, n ∈ (find_shared_connections (qs.map some)).nodeOrder ↔
        n ∈ (find_shared_connections (ps.map some)).nodeOrder)
    ∧ (∀ n, (find_shared_connections (qs.map some)).attr n
        = (find_shared_connections (ps.map some)).attr n)
    ∧ (∀ a b, (find_shared_connections (qs.map some)).hasEdge a b
        = (find_shared_connections (ps.map some)).hasEdge a b)
    ∧ (∀ a b, (find_shared_connections (qs.map some)).weight a b
        = (find_shared_connections (ps.map some)).weight a b) := by
  have hnq : (profNames qs).Nodup := ((hperm.map Profile.name).nodup_iff).mp hn
  have hnames : ∀ n, n ∈ profNames qs ↔ n ∈ profNames ps :=
    fun n => (hperm.map Profile.name).mem_iff.symm
  refine ⟨?_, ?_, ?_, ?_⟩
  · intro n
    rw [shared_mem_spec hnq n, shared_mem_spec hn n, hnames n,
      sharedInterSpec_perm hperm n]
  · intro n
    rw [shared_attr_spec hnq n, shared_attr_spec hn n]
    exact if_congr (sharedInterSpec_perm hperm n).symm rfl
      (if_congr (hnames n) rfl rfl)
  · intro a b
    rw [Bool.eq_iff_iff]
    rw [shared_hasEdge_spec hnq a b, shared_hasEdge_spec hn a b]
    constructor
    · rintro ⟨p, hp, q, hq, hrest⟩
      exact ⟨p, hperm.mem_iff.mpr hp, q, hperm.mem_iff.mpr hq, hrest⟩
    · rintro ⟨p, hp, q, hq, hrest⟩
      exact ⟨p, hperm.mem_iff.mp hp, q, hperm.mem_iff.mp hq, hrest⟩
  · intro a b
    by_cases hpair : ∃ p ∈ ps, ∃ q ∈ ps, p.name ≠ q.name ∧ uPair a b p.name q.name
    · obtain ⟨p, hp, q, hq, hne, hu⟩ := hpair
      rcases hu with ⟨rfl, rfl⟩ | ⟨rfl, rfl⟩
      · rw [shared_weight_pair hnq (hperm.mem_iff.mp hp) (hperm.mem_iff.mp hq) hne,
          shared_weight_pair hn hp hq hne]
      · rw [shared_weight_pair hnq (hperm.mem_iff.mp hq) (hperm.mem_iff.mp hp)
          (fun hc => hne hc.symm),
          shared_weight_pair hn hq hp (fun hc => hne hc.symm)]
    · rw [shared_weight_none hnq ?_, shared_weight_none hn hpair]
      intro hcon
      obtain ⟨p, hp, q, hq, hrest⟩ := hcon
      exact hpair ⟨p, hperm.mem_iff.mpr hp, q, hperm.mem_iff.mpr hq, hrest⟩

theorem C3_witness :
    ((find_shared_connections
        [some ⟨"P2", ["B", "C"]⟩, some ⟨"P1", ["A", "B"]⟩, some ⟨"P3", ["C", "A"]⟩]).weight "P1" "P2"
      = (find_shared_connections
        [some ⟨"P1", ["A", "B"]⟩, some ⟨"P2", ["B", "C"]⟩, some ⟨"P3", ["C", "A"]⟩]).weight "P1" "P2")
    ∧ (find_shared_connections
        [some ⟨"P2", ["B", "C"]⟩, some ⟨"P1", ["A", "B"]⟩, some ⟨"P3", ["C", "A"]⟩]).hasEdge "P1" "P2"
      = (find_shared_connections
        [some ⟨"P1", ["A", "B"]⟩, some ⟨"P2", ["B", "C"]⟩, some ⟨"P3", ["C", "A"]⟩]).hasEdge "P1" "P2" :=
  ⟨(C3_amended_permutation_invariance
      [⟨"P1", ["A", "B"]⟩, ⟨"P2", ["B", "C"]⟩, ⟨"P3", ["C", "A"]⟩]
      [⟨"P2", ["B", "C"]⟩, ⟨"P1", ["A", "B"]⟩, ⟨"P3", ["C", "A"]⟩]
      (List.Perm.swap _ _ _) (by decide)).2.2.2 "P1" "P2",
   (C3_amended_permutation_invariance
      [⟨"P1", ["A", "B"]⟩, ⟨"P2", ["B", "C"]⟩, ⟨"P3", ["C", "A"]⟩]
      [⟨"P2", ["B", "C"]⟩, ⟨"P1", ["A", "B"]⟩, ⟨"P3", ["C", "A"]⟩]
      (List.Perm.swap _ _ _) (by decide)).2.2.1 "P1" "P2"⟩

/-! ### Phase 1 of `create_combined_network` -/

/-- All coauthor names of the input, in order of appearance (with repeats). -/
def coAll (ps : List Profile) : List String := (ps.map Profile.coauthors).join

theorem mem_coAll {ps : List Profile} {n : String} :
    n ∈ coAll ps ↔ ∃ p ∈ ps, n ∈ p.coauthors := by
  unfold coAll
  rw [List.mem_join]
  constructor
  · rintro ⟨l, hl, hn⟩
    obtain ⟨p, hp, rfl⟩ := List.mem_map.mp hl
    exact ⟨p, hp, hn⟩
  · rintro ⟨p, hp, hn⟩
    exact ⟨p.coauthors, List.mem_map_of_mem _ hp, hn⟩

theorem coStep_attr (pname : String) (H : Graph) (c n : String) :
    (coStep pname H c).attr n =
      if n = c ∧ n ∉ H.nodeOrder then some "coauthor" else H.attr n := by
  unfold coStep
  rw [addEdgePlain_attr]
  by_cases hc : H.hasNode c
  · rw [if_pos hc, if_neg ?_]
    rintro ⟨rfl, hn⟩
    exact hn (hasNode_iff.mp hc)
  · rw [if_neg hc, addNode_attr]
    by_cases hn : n = c
    · rw [if_pos hn, if_pos ⟨hn, fun hm => hc (hasNode_iff.mpr (hn ▸ hm))⟩]
    · rw [if_neg hn, if_neg (fun hcon => hn hcon.1)]

theorem coStep_mem (pname : String) (H : Graph) (c n : String) :
    (n ∈ (coStep pname H c).nodeOrder ↔ n ∈ H.nodeOrder ∨ n = c ∨ n = pname) := by
  unfold coStep
  rw [mem_addEdgePlain]
  by_cases hc : H.hasNode c
  · rw [if_pos hc]
    constructor
    · rintro (h | h | h)
      · exact Or.inl h
      · exact Or.inr (Or.inr h)
      · exact Or.inr (Or.inl h)
    · rintro (h | h | h)
      · exact Or.inl h
      · exact Or.inr (Or.inr h)
      · exact Or.inr (Or.inl h)
  · rw [if_neg hc, mem_addNode]
    constructor
    · rintro ((h | h) | h | h)
      · exact Or.inl h
      · exact Or.inr (Or.inl h)
      · exact Or.inr (Or.inr h)
      · exact Or.inr (Or.inl h)
    · rintro (h | h | h)
      · exact Or.inl (Or.inl h)
      · exact Or.inl (Or.inr h)
      · exact Or.inr (Or.inl h)

theorem coStep_hasEdge (pname : String) (H : Graph) (c a b : String) :
    ((coStep pname H c).hasEdge a b = true ↔
      H.hasEdge a b = true ∨ uPair a b pname c) := by
  unfold coStep
  rw [hasEdge_addEdgePlain]
  by_cases hc : H.hasNode c
  · rw [if_pos hc]
  · rw [if_neg hc, hasEdge_congr (addNode_edges H c "coauthor")]

theorem coStep_weight (pname : String) (H : Graph) (c : String) :
    (coStep pname H c).weight = H.weight := by
  unfold coStep
  rw [addEdgePlain_weight]
  by_cases hc : H.hasNode c
  · rw [if_pos hc]
  · rw [if_neg hc, addNode_weight]

theorem coStep_nodup {pname : String} {H : Graph} (h : H.nodeOrder.Nodup) (c : String) :
    (coStep pname H c).nodeOrder.Nodup := by
  unfold coStep
  split
  · exact addEdgePlain_nodup h _ _
  · exact addEdgePlain_nodup (addNode_nodup h _ _) _ _

theorem coStep_edgesDistinct {pname : String} {H : Graph} (h : edgesDistinct H)
    (c : String) : edgesDistinct (coStep pname H c) := by
  unfold coStep
  split
  · exact edgesDistinct_addEdgePlain h _ _
  · exact edgesDistinct_addEdgePlain (edgesDistinct_addNode h _ _) _ _

theorem coStep_noSelfLoops {pname : String} {H : Graph} (h : noSelfLoops H)
    {c : String} (hc : pname ≠ c) : noSelfLoops (coStep pname H c) := by
  unfold coStep
  split
  · exact noSelfLoops_addEdgePlain h hc
  · exact noSelfLoops_addEdgePlain (noSelfLoops_addNode h _ _) hc

theorem coFold_attr (pname : String) (cs : List String) :
    ∀ (H : Graph) (n : String), pname ∈ H.nodeOrder →
    ((cs.foldl (coStep pname) H).attr n
      = if n ∈ cs ∧ n ∉ H.nodeOrder then some "coauthor" else H.attr n) := by
  induction cs with
  | nil => intro H n _; simp
  | cons c cs ih =>
    intro H n hpn
    have hpn' : pname ∈ (coStep pname H c).nodeOrder :=
      (coStep_mem pname H c pname).mpr (Or.inl hpn)
    rw [List.foldl_cons, ih _ _ hpn', coStep_attr]
    by_cases hc : n = c
    · subst hc
      by_cases hH : n ∈ H.nodeOrder
      · rw [if_neg (fun h => h.2 ((coStep_mem pname H n n).mpr (Or.inl hH))),
          if_neg (fun h => h.2 hH), if_neg (fun h => h.2 hH)]
      · rw [if_neg (fun h => h.2 ((coStep_mem pname H n n).mpr (Or.inr (Or.inl rfl)))),
          if_pos ⟨rfl, hH⟩, if_pos ⟨List.mem_cons_self _ _, hH⟩]
    · have hmm : (n ∈ (coStep pname H c).nodeOrder ↔ n ∈ H.nodeOrder) := by
        rw [coStep_mem]
        constructor
        · rintro (h | h | h)
          · exact h
          · exact absurd h hc
          · exact h ▸ hpn
        · exact Or.inl
      by_cases hcs : n ∈ cs
      · by_cases hH : n ∈ H.nodeOrder
        · rw [if_neg (fun h => h.2 (hmm.mpr hH)), if_neg (fun h => hc h.1),
            if_neg (fun h => h.2 hH)]
        · rw [if_pos ⟨hcs, fun h => hH (hmm.mp h)⟩,
            if_pos ⟨List.mem_cons_of_mem _ hcs, hH⟩]
      · rw [if_neg (fun h => hcs h.1), if_neg (fun h => hc h.1), if_neg ?_]
        rintro ⟨hmem, -⟩
        rcases List.mem_cons.mp hmem with h | h
        · exact hc h
        · exact hcs h

theorem coFold_mem (pname : String) (cs : List String) :
    ∀ (H : Graph) (n : String), pname ∈ H.nodeOrder →
    (n ∈ (cs.foldl (coStep pname) H).nodeOrder ↔ n ∈ H.nodeOrder ∨ n ∈ cs) := by
  induction cs with
  | nil => intro H n _; simp
  | cons c cs ih =>
    intro H n hpn
    have hpn' : pname ∈ (coStep pname H c).nodeOrder :=
      (coStep_mem pname H c pname).mpr (Or.inl hpn)
    rw [List.foldl_cons, ih _ _ hpn', coStep_mem]
    simp only [List.mem_cons]
    constructor
    · rintro ((h | h | h) | h)
      · exact Or.inl h
      · exact Or.inr (Or.inl h)
      · exact Or.inl (h ▸ hpn)
      · exact Or.inr (Or.inr h)
    · rintro (h | h | h)
      · exact Or.inl (Or.inl h)
      · exact Or.inl (Or.inr (Or.inl h))
      · exact Or.inr h

theorem coFold_hasEdge (pname : String) (cs : List String) :
    ∀ (H : Graph) (a b : String),
    ((cs.foldl (coStep pname) H).hasEdge a b = true ↔
      H.hasEdge a b = true ∨ ∃ c ∈ cs, uPair a b pname c) := by
  induction cs with
  | nil => intro H a b; simp
  | cons c cs ih =>
    intro H a b
    rw [List.foldl_cons, ih, coStep_hasEdge]
    simp only [List.mem_cons]
    constructor
    · rintro ((h | h) | ⟨c', hc', h⟩)
      · exact Or.inl h
      · exact Or.inr ⟨c, Or.inl rfl, h⟩
      · exact Or.inr ⟨c', Or.inr hc', h⟩
    · rintro (h | ⟨c', rfl | hc', h⟩)
      · exact Or.inl (Or.inl h)
      · exact Or.inl (Or.inr h)
      · exact Or.inr ⟨c', hc', h⟩

theorem coFold_weight (pname : String) (cs : List String) :
    ∀ (H : Graph), (cs.foldl (coStep pname) H).weight = H.weight := by
  induction cs with
  | nil => intro H; rfl
  | cons c cs ih =>
    intro H
    rw [List.foldl_cons, ih, coStep_weight]

theorem addProfile_attr (G : Graph) (p : Profile) (n : String) :
    (addProfile G p).attr n =
      if n = p.name then some "professor"
      else if n ∈ p.coauthors ∧ n ∉ G.nodeOrder then some "coauthor"
      else G.attr n := by
  unfold addProfile
  rw [coFold_attr _ _ _ _ (mem_addNode.mpr (Or.inr rfl)), addNode_attr]
  by_cases h1 : n = p.name
  · rw [if_neg ?_, if_pos h1, if_pos h1]
    rintro ⟨-, habs⟩
    exact habs (mem_addNode.mpr (Or.inr h1))
  · rw [if_neg h1]
    by_cases h2 : n ∈ p.coauthors ∧ n ∉ G.nodeOrder
    · have hup : n ∉ (G.addNode p.name "professor").nodeOrder := by
        intro habs
        rcases mem_addNode.mp habs with h | h
        · exact h2.2 h
        · exact h1 h
      rw [if_pos ⟨h2.1, hup⟩, if_pos h2, if_neg h1]
    · rw [if_neg ?_, if_neg h2, if_neg h1]
      rintro ⟨hco, hnm⟩
      exact h2 ⟨hco, fun hmem => hnm (mem_addNode.mpr (Or.inl hmem))⟩

theorem addProfile_mem (G : Graph) (p : Profile) (n : String) :
    (n ∈ (addProfile G p).nodeOrder ↔
      n ∈ G.nodeOrder ∨ n = p.name ∨ n ∈ p.coauthors) := by
  unfold addProfile
  rw [coFold_mem _ _ _ _ (mem_addNode.mpr (Or.inr rfl)), mem_addNode]
  tauto

theorem addProfile_hasEdge (G : Graph) (p : Profile) (a b : String) :
    ((addProfile G p).hasEdge a b = true ↔
      G.hasEdge a b = true ∨ ∃ c ∈ p.coauthors, uPair a b p.name c) := by
  unfold addProfile
  rw [coFold_hasEdge, hasEdge_congr (addNode_edges G p.name "professor")]

theorem addProfile_weight (G : Graph) (p : Profile) :
    (addProfile G p).weight = G.weight := by
  unfold addProfile
  rw [coFold_weight, addNode_weight]

theorem combinedPhase1_attr (ps : List Profile) :
    ∀ (G : Graph) (n : String),
    ((ps.map some).foldl combinedStep G).attr n =
      if n ∈ profNames ps then some "professor"
      else if n ∈ coAll ps ∧ n ∉ G.nodeOrder then some "coauthor"
      else G.attr n := by
  induction ps with
  | nil => intro G n; simp [profNames, coAll]
  | cons p ps ih =>
    intro G n
    rw [List.map_cons, List.foldl_cons]
    show ((ps.map some).foldl combinedStep (addProfile G p)).attr n = _
    rw [ih]
    have hnamescons : n ∈ profNames (p :: ps) ↔ n = p.name ∨ n ∈ profNames ps := by
      simp [profNames]
    have hcocons : n ∈ coAll (p :: ps) ↔ n ∈ p.coauthors ∨ n ∈ coAll ps := by
      simp [coAll]
    by_cases hA : n ∈ profNames ps
    · rw [if_pos hA, if_pos (hnamescons.mpr (Or.inr hA))]
    · rw [if_neg hA]
      by_cases hB : n = p.name
      · rw [if_neg ?_, if_pos (hnamescons.mpr (Or.inl hB)), addProfile_attr, if_pos hB]
        rintro ⟨-, habs⟩
        exact habs (addProfile_mem G p n |>.mpr (Or.inr (Or.inl hB)))
      · rw [if_neg (fun h => (hnamescons.mp h).elim hB hA)]
        by_cases hC : n ∈ p.coauthors ∧ n ∉ G.nodeOrder
        · rw [if_neg ?_, if_pos ⟨hcocons.mpr (Or.inl hC.1), hC.2⟩,
            addProfile_attr, if_neg hB, if_pos hC]
          rintro ⟨-, habs⟩
          exact habs (addProfile_mem G p n |>.mpr (Or.inr (Or.inr hC.1)))
        · rw [addProfile_attr, if_neg hB, if_neg hC]
          by_cases hD : n ∈ p.coauthors
          · have hG : n ∈ G.nodeOrder := by
              by_contra hG
              exact hC ⟨hD, hG⟩
            rw [if_neg ?_, if_neg ?_]
            · rintro ⟨-, habs⟩
              exact habs hG
            · rintro ⟨-, habs⟩
              exact habs (addProfile_mem G p n |>.mpr (Or.inl hG))
          · have hmm : (n ∈ (addProfile G p).nodeOrder ↔ n ∈ G.nodeOrder) := by
              rw [addProfile_mem]
              constructor
              · rintro (h | h | h)
                · exact h
                · exact absurd h hB
                · exact absurd h hD
              · exact Or.inl
            by_cases hE : n ∈ coAll ps ∧ n ∉ G.nodeOrder
            · rw [if_pos ⟨hE.1, fun h => hE.2 (hmm.mp h)⟩,
                if_pos ⟨hcocons.mpr (Or.inr hE.1), hE.2⟩]
            · rw [if_neg (fun h => hE ⟨h.1, fun hg => h.2 (hmm.mpr hg)⟩), if_neg ?_]
              rintro ⟨hco, hnm⟩
              rcases hcocons.mp hco with h | h
              · exact hD h
              · exact hE ⟨h, hnm⟩

theorem combinedPhase1_mem (ps : List Profile) :
    ∀ (G : Graph) (n : String),
    (n ∈ ((ps.map some).foldl combinedStep G).nodeOrder ↔
      n ∈ G.nodeOrder ∨ n ∈ profNames ps ∨ n ∈ coAll ps) := by
  induction ps with
  | nil => intro G n; simp [profNames, coAll]
  | cons p ps ih =>
    intro G n
    rw [List.map_cons, List.foldl_cons]
    show (n ∈ ((ps.map some).foldl combinedStep (addProfile G p)).nodeOrder ↔ _)
    rw [ih, addProfile_mem]
    simp only [profNames, coAll, List.map_cons, List.mem_cons, List.join_cons,
      List.mem_append]
    rw [show (n ∈ List.map Profile.name ps) = (n ∈ profNames ps) from rfl,
      show (n ∈ (List.map Profile.coauthors ps).join) = (n ∈ coAll ps) from rfl]
    tauto

theorem combinedPhase1_hasEdge (ps : List Profile) :
    ∀ (G : Graph) (a b : String),
    (((ps.map some).foldl combinedStep G).hasEdge a b = true ↔
      G.hasEdge a b = true ∨ ∃ p ∈ ps, ∃ c ∈ p.coauthors, uPair a b p.name c) := by
  induction ps with
  | nil => intro G a b; simp
  | cons p ps ih =>
    intro G a b
    rw [List.map_cons, List.foldl_cons]
    show (((ps.map some).foldl combinedStep (addProfile G p)).hasEdge a b = true ↔ _)
    rw [ih, addProfile_hasEdge]
    simp only [List.mem_cons]
    constructor
    · rintro ((h | h) | ⟨p', hp', h⟩)
      · exact Or.inl h
      · exact Or.inr ⟨p, Or.inl rfl, h⟩
      · exact Or.inr ⟨p', Or.inr hp', h⟩
    · rintro (h | ⟨p', rfl | hp', h⟩)
      · exact Or.inl (Or.inl h)
      · exact Or.inl (Or.inr h)
      · exact Or.inr ⟨p', hp', h⟩

theorem combinedPhase1_weight (ps : List Profile) :
    ∀ (G : Graph),
    ((ps.map some).foldl combinedStep G).weight = G.weight := by
  induction ps with
  | nil => intro G; rfl
  | cons p ps ih =>
    intro G
    rw [List.map_cons, List.foldl_cons]
    show ((ps.map some).foldl combinedStep (addProfile G p)).weight = _
    rw [ih, addProfile_weight]

/-! ### The reclassification loop of `create_combined_network` -/

theorem hasEdge_uPair {G : Graph} {a b c d : String} (h : uPair a b c d) :
    G.hasEdge a b = G.hasEdge c d := by
  rw [Bool.eq_iff_iff, hasEdge_iff, hasEdge_iff]
  constructor
  · rintro ⟨e, he, hp⟩
    exact ⟨e, he, uPair_trans (uPair_symm h) (uPair_symm hp)⟩
  · rintro ⟨e, he, hp⟩
    exact ⟨e, he, uPair_trans h (uPair_symm hp)⟩

theorem neighbors_addEdgePlain_ne {G : Graph} {u v c : String}
    (hu : u ≠ c) (hv : v ≠ c) :
    (G.addEdgePlain u v).neighbors c = G.neighbors c := by
  unfold Graph.neighbors
  rw [addEdgePlain_edges]
  split
  · rfl
  · rw [List.filterMap_append]
    simp [hu, hv]

theorem pairUpStep_attr (n : String) (H : Graph) (pq : String × String) :
    (pairUpStep n H pq).attr = H.attr := by
  unfold pairUpStep
  split
  · rw [bumpEdge_attr]
  · rw [addEdgeW_attr]

theorem innerFold_attr (n : String) (pl : List (String × String)) :
    ∀ (H : Graph), (pl.foldl (pairUpStep n) H).attr = H.attr := by
  induction pl with
  | nil => intro H; rfl
  | cons e pl ih =>
    intro H
    rw [List.foldl_cons, ih, pairUpStep_attr]

/-- A pair step not matching the tracked unordered pair `{P, Q}` leaves the
edge and the weight there unchanged. -/
theorem pairUpStep_other {n P Q : String} {H : Graph} {e : String × String}
    (hne : ¬ uPair P Q e.1 e.2) :
    (pairUpStep n H e).hasEdge P Q = H.hasEdge P Q
    ∧ ∀ a b, uPair a b P Q → (pairUpStep n H e).weight a b = H.weight a b := by
  unfold pairUpStep
  split
  · exact ⟨rfl, fun a b hab => by
      rw [show (H.bumpEdge e.1 e.2 n).weight a b
          = if uPair a b e.1 e.2 then some ((H.weight e.1 e.2).getD 1 + 1)
            else H.weight a b from rfl,
        if_neg (fun hc => hne (uPair_trans (uPair_symm hab) (uPair_symm hc)))]⟩
  · constructor
    · rw [Bool.eq_iff_iff, hasEdge_addEdgeW]
      constructor
      · rintro (h | h)
        · exact h
        · exact absurd h hne
      · exact Or.inl
    · intro a b hab
      rw [addEdgeW_weight,
        if_neg (fun hc => hne (uPair_trans (uPair_symm hab) (uPair_symm hc)))]

theorem innerFold_other {n P Q : String} (pl : List (String × String)) :
    ∀ (H : Graph), (∀ e ∈ pl, ¬ uPair P Q e.1 e.2) →
    (pl.foldl (pairUpStep n) H).hasEdge P Q = H.hasEdge P Q
    ∧ ∀ a b, uPair a b P Q → (pl.foldl (pairUpStep n) H).weight a b = H.weight a b := by
  induction pl with
  | nil => intro H _; exact ⟨rfl, fun _ _ _ => rfl⟩
  | cons e pl ih =>
    intro H hno
    rw [List.foldl_cons]
    have hstep := pairUpStep_other (n := n) (H := H) (hno e (List.mem_cons_self _ _))
    have hrest := ih (pairUpStep n H e)
      (fun e' he' => hno e' (List.mem_cons_of_mem _ he'))
    exact ⟨hrest.1.trans hstep.1,
      fun a b hab => (hrest.2 a b hab).trans (hstep.2 a b hab)⟩

theorem pairUpStep_edgesDistinct {n : String} {H : Graph} (h : edgesDistinct H)
    (e : String × String) : edgesDistinct (pairUpStep n H e) := by
  unfold pairUpStep
  split
  · unfold edgesDistinct at h ⊢
    rw [bumpEdge_edges]
    exact h
  · exact edgesDistinct_addEdgeW h _ _ _ _

theorem innerFold_edgesDistinct {n : String} (pl : List (String × String)) :
    ∀ (H : Graph), edgesDistinct H → edgesDistinct (pl.foldl (pairUpStep n) H) := by
  induction pl with
  | nil => intro H h; exact h
  | cons e pl ih =>
    intro H h
    rw [List.foldl_cons]
    exact ih _ (pairUpStep_edgesDistinct h e)

/-- The pair loop only connects nodes of `professor` classification, so the
adjacency list of any non-professor node is unchanged. -/
theorem innerFold_neighbors {n : String} (pl : List (String × String)) :
    ∀ (H : Graph) (c : String),
    (∀ e ∈ pl, H.attr e.1 = some "professor" ∧ H.attr e.2 = some "professor") →
    H.attr c ≠ some "professor" →
    (pl.foldl (pairUpStep n) H).neighbors c = H.neighbors c := by
  induction pl with
  | nil => intro H c _ _; rfl
  | cons e pl ih =>
    intro H c hprof hc
    rw [List.foldl_cons]
    have hstep : (pairUpStep n H e).neighbors c = H.neighbors c := by
      unfold pairUpStep
      split
      · exact neighbors_congr (bumpEdge_edges H e.1 e.2 n) c
      · show ((H.addEdgePlain e.1 e.2).neighbors c) = _
        exact neighbors_addEdgePlain_ne
          (fun hcon => hc (hcon ▸ (hprof e (List.mem_cons_self _ _)).1))
          (fun hcon => hc (hcon ▸ (hprof e (List.mem_cons_self _ _)).2))
    rw [← hstep]
    apply ih
    · intro e' he'
      rw [pairUpStep_attr]
      exact hprof e' (List.mem_cons_of_mem _ he')
    · rw [pairUpStep_attr]
      exact hc

/-- Tracking invariant for the reclassification pass, relative to the phase-1
graph `G1`: professor classification is untouched, adjacency lists of
(phase-1) coauthor nodes are untouched, only coauthor nodes of phase 1 can
still be classified `coauthor`, and stored edges stay pairwise distinct. -/
def stateOK (G1 G : Graph) : Prop :=
  (∀ m, (G.attr m = some "professor" ↔ G1.attr m = some "professor"))
  ∧ (∀ c, G1.attr c = some "coauthor" → G.neighbors c = G1.neighbors c)
  ∧ (∀ c, G.attr c = some "coauthor" → G1.attr c = some "coauthor")
  ∧ edgesDistinct G

theorem stateOK_refl {G1 : Graph} (h : edgesDistinct G1) : stateOK G1 G1 :=
  ⟨fun _ => Iff.rfl, fun _ _ => rfl, fun _ h => h, h⟩

theorem edgesDistinct_setAttr {G : Graph} (h : edgesDistinct G) (n t : String) :
    edgesDistinct (G.setAttr n t) := by
  unfold edgesDistinct at h ⊢
  rw [setAttr_edges]
  exact h

theorem processNode_attr_other {G : Graph} {n m : String} (hmn : m ≠ n) :
    (processNode G n).attr m = G.attr m := by
  unfold processNode
  split
  · split
    · rw [innerFold_attr, setAttr_attr, if_neg hmn]
    · rfl
  · rfl

theorem processNode_stateOK {G1 G : Graph} (hok : stateOK G1 G) (n : String) :
    stateOK G1 (processNode G n) := by
  unfold processNode
  by_cases h1 : G.attr n = some "coauthor"
  · rw [if_pos h1]
    by_cases h2 : 1 < ((G.neighbors n).filter fun m => G.attr m = some "professor").length
    · rw [if_pos h2]
      have hprofends : ∀ e ∈ combinations2
          ((G.neighbors n).filter fun m => G.attr m = some "professor"),
          (G.setAttr n "shared_coauthor").attr e.1 = some "professor"
          ∧ (G.setAttr n "shared_coauthor").attr e.2 = some "professor" := by
        intro e he
        have hmem := comb2_mem_both he
        have h1' := (List.mem_filter.mp hmem.1).2
        have h2' := (List.mem_filter.mp hmem.2).2
        rw [decide_eq_true_eq] at h1' h2'
        constructor
        · rw [setAttr_attr, if_neg (fun hc => by
            rw [hc] at h1'
            exact absurd (h1.symm.trans h1') (by decide))]
          exact h1'
        · rw [setAttr_attr, if_neg (fun hc => by
            rw [hc] at h2'
            exact absurd (h1.symm.trans h2') (by decide))]
          exact h2'
      refine ⟨?_, ?_, ?_, ?_⟩
      · intro m
        rw [innerFold_attr, setAttr_attr]
        by_cases hm : m = n
        · rw [if_pos hm]
          subst hm
          rw [hok.2.2.1 m h1]
          decide
        · rw [if_neg hm]
          exact hok.1 m
      · intro c hc
        have hcne : (G.setAttr n "shared_coauthor").attr c ≠ some "professor" := by
          rw [setAttr_attr]
          by_cases hcn : c = n
          · rw [if_pos hcn]
            intro habs
            exact absurd habs (by decide)
          · rw [if_neg hcn]
            intro habs
            rw [(hok.1 c).mp habs] at hc
            exact absurd hc (by decide)
        rw [innerFold_neighbors _ _ _ hprofends hcne,
          neighbors_congr (setAttr_edges G n "shared_coauthor") c]
        exact hok.2.1 c hc
      · intro c hcattr
        rw [innerFold_attr, setAttr_attr] at hcattr
        by_cases hcn : c = n
        · rw [if_pos hcn] at hcattr
          exact absurd hcattr (by decide)
        · rw [if_neg hcn] at hcattr
          exact hok.2.2.1 c hcattr
      · exact innerFold_edgesDistinct _ _ (edgesDistinct_setAttr hok.2.2.2 n "shared_coauthor")
    · rw [if_neg h2]
      exact hok
  · rw [if_neg h1]
    exact hok

/-- A node that is not a shared coauthor of the tracked pair `{P, Q}` leaves
the tracked edge and weight unchanged. -/
theorem processNode_other {G1 G : Graph} {P Q n : String} (hok : stateOK G1 G)
    (hattr : G.attr n = G1.attr n)
    (hcond : ¬ (G1.attr n = some "coauthor" ∧ P ∈ G1.neighbors n ∧ Q ∈ G1.neighbors n)) :
    (processNode G n).hasEdge P Q = G.hasEdge P Q
    ∧ ∀ a b, uPair a b P Q → (processNode G n).weight a b = G.weight a b := by
  unfold processNode
  by_cases h1 : G.attr n = some "coauthor"
  · rw [if_pos h1]
    by_cases h2 : 1 < ((G.neighbors n).filter fun m => G.attr m = some "professor").length
    · rw [if_pos h2]
      have hg1 : G1.attr n = some "coauthor" := hattr ▸ h1
      have hnb : G.neighbors n = G1.neighbors n := hok.2.1 n hg1
      have hmiss : P ∉ ((G.neighbors n).filter fun m => G.attr m = some "professor")
          ∨ Q ∉ ((G.neighbors n).filter fun m => G.attr m = some "professor") := by
        by_contra hboth
        push_neg at hboth
        refine hcond ⟨hg1, ?_, ?_⟩
        · exact hnb ▸ (List.mem_filter.mp hboth.1).1
        · exact hnb ▸ (List.mem_filter.mp hboth.2).1
      have hno : ∀ e ∈ combinations2
          ((G.neighbors n).filter fun m => G.attr m = some "professor"),
          ¬ uPair P Q e.1 e.2 := by
        intro e he hu
        have hmem := comb2_mem_both he
        rcases hu with ⟨h1', h2'⟩ | ⟨h1', h2'⟩
        · rcases hmiss with hm | hm
          · exact hm (h1' ▸ hmem.1)
          · exact hm (h2' ▸ hmem.2)
        · rcases hmiss with hm | hm
          · exact hm (h1' ▸ hmem.2)
          · exact hm (h2' ▸ hmem.1)
      have hinner := innerFold_other
        (n := n) (P := P) (Q := Q) _ (G.setAttr n "shared_coauthor") hno
      refine ⟨hinner.1.trans (hasEdge_congr (setAttr_edges G n "shared_coauthor") P Q), ?_⟩
      intro a b hab
      rw [hinner.2 a b hab, setAttr_weight]
    · rw [if_neg h2]
      exact ⟨rfl, fun _ _ _ => rfl⟩
  · rw [if_neg h1]
    exact ⟨rfl, fun _ _ _ => rfl⟩

/-- One pair step at a pair matching the tracked pair `{P, Q}` creates the
edge with weight 1, or increments an existing weight. -/
theorem pairUpStep_hit {M : Graph} {P Q n : String} {epr : String × String}
    (hue : uPair P Q epr.1 epr.2) {g : Bool} (hedge : M.hasEdge P Q = g)
    {w : Option Nat} (hw : ∀ a b, uPair a b P Q → M.weight a b = w) :
    (pairUpStep n M epr).hasEdge P Q = true
    ∧ ∀ a b, uPair a b P Q → (pairUpStep n M epr).weight a b
        = some (if g = true then w.getD 1 + 1 else 1) := by
  unfold pairUpStep
  have hcond : M.hasEdge epr.1 epr.2 = M.hasEdge P Q := (hasEdge_uPair hue).symm
  by_cases hc : M.hasEdge epr.1 epr.2 = true
  · rw [if_pos hc]
    have hg : g = true := hedge.symm.trans (hcond.symm.trans hc)
    constructor
    · rw [hasEdge_congr (bumpEdge_edges M epr.1 epr.2 n) P Q]
      exact hcond.symm.trans hc
    · intro a b hab
      rw [show (M.bumpEdge epr.1 epr.2 n).weight a b
          = if uPair a b epr.1 epr.2 then some ((M.weight epr.1 epr.2).getD 1 + 1)
            else M.weight a b from rfl,
        if_pos (uPair_trans hab (uPair_symm hue)),
        hw epr.1 epr.2 (uPair_symm hue), if_pos hg]
  · rw [if_neg hc]
    have hgne : ¬ g = true := fun h => hc (hcond.trans (hedge.trans h))
    constructor
    · exact hasEdge_addEdgeW.mpr (Or.inr hue)
    · intro a b hab
      rw [addEdgeW_weight, if_pos (uPair_trans hab (uPair_symm hue)), if_neg hgne]

/-- Processing a shared coauthor of the tracked professor pair creates or
upgrades the tracked edge: weight 1 on creation, incremented on upgrade. -/
theorem processNode_bump {G1 G : Graph} {P Q n : String} (hok : stateOK G1 G)
    (hattr : G.attr n = G1.attr n) (hPQ : P ≠ Q)
    (hP : G1.attr P = some "professor") (hQ : G1.attr Q = some "professor")
    (hco : G1.attr n = some "coauthor") (hPn : P ∈ G1.neighbors n)
    (hQn : Q ∈ G1.neighbors n) (w : Option Nat)
    (hw : ∀ a b, uPair a b P Q → G.weight a b = w) :
    (processNode G n).hasEdge P Q = true
    ∧ ∀ a b, uPair a b P Q → (processNode G n).weight a b
        = some (if G.hasEdge P Q = true then w.getD 1 + 1 else 1) := by
  have hGn : G.attr n = some "coauthor" := hattr.trans hco
  have hnb : G.neighbors n = G1.neighbors n := hok.2.1 n hco
  have hPmem : P ∈ ((G.neighbors n).filter fun m => G.attr m = some "professor") := by
    rw [List.mem_filter]
    exact ⟨hnb ▸ hPn, decide_eq_true ((hok.1 P).mpr hP)⟩
  have hQmem : Q ∈ ((G.neighbors n).filter fun m => G.attr m = some "professor") := by
    rw [List.mem_filter]
    exact ⟨hnb ▸ hQn, decide_eq_true ((hok.1 Q).mpr hQ)⟩
  have hlen := one_lt_length_of_two_mem hPmem hQmem hPQ
  have hnodup : ((G.neighbors n).filter fun m => G.attr m = some "professor").Nodup :=
    List.Nodup.filter _ (neighbors_nodup hok.2.2.2 n)
  unfold processNode
  rw [if_pos hGn, if_pos hlen]
  obtain ⟨epr, hepr, hue⟩ :
      ∃ epr ∈ combinations2 ((G.neighbors n).filter fun m => G.attr m = some "professor"),
        uPair P Q epr.1 epr.2 := by
    rcases comb2_of_mem hPmem hQmem hPQ with hcase | hcase
    · exact ⟨(P, Q), hcase, uPair_refl P Q⟩
    · exact ⟨(Q, P), hcase, Or.inr ⟨rfl, rfl⟩⟩
  obtain ⟨l1, l2, hsplit⟩ := List.append_of_mem hepr
  have hcnodup := comb2_nodup hnodup
  rw [hsplit, List.nodup_append] at hcnodup
  have hothers : ∀ e', e' ∈ l1 ∨ e' ∈ l2 → ¬ uPair P Q e'.1 e'.2 := by
    intro e' he' hu
    have heL : e' ∈ combinations2
        ((G.neighbors n).filter fun m => G.attr m = some "professor") := by
      rw [hsplit]
      rcases he' with h' | h'
      · exact List.mem_append.mpr (Or.inl h')
      · exact List.mem_append.mpr (Or.inr (List.mem_cons_of_mem _ h'))
    have hsame : e' = epr := by
      obtain ⟨x, y⟩ := e'
      obtain ⟨x', y'⟩ := epr
      rcases hu with ⟨h1, h2⟩ | ⟨h1, h2⟩ <;> rcases hue with ⟨h3, h4⟩ | ⟨h3, h4⟩
      · have hx : x = x' := h1.symm.trans h3
        have hy : y = y' := h2.symm.trans h4
        rw [hx, hy]
      · have hx : x = y' := h1.symm.trans h3
        have hy : y = x' := h2.symm.trans h4
        rw [hx, hy] at heL
        exact absurd heL (comb2_no_flip hnodup hepr)
      · have hx : x = y' := h2.symm.trans h4
        have hy : y = x' := h1.symm.trans h3
        rw [hx, hy] at heL
        exact absurd heL (comb2_no_flip hnodup hepr)
      · have hx : x = x' := h2.symm.trans h4
        have hy : y = y' := h1.symm.trans h3
        rw [hx, hy]
    subst hsame
    rcases he' with h' | h'
    · exact hcnodup.2.2 h' (List.mem_cons_self _ _)
    · exact (List.nodup_cons.mp hcnodup.2.1).1 h'
  rw [hsplit, List.foldl_append, List.foldl_cons]
  have hl1 := innerFold_other (n := n) (P := P) (Q := Q) l1
    (G.setAttr n "shared_coauthor") (fun e' he' => hothers e' (Or.inl he'))
  have hl1edge : (l1.foldl (pairUpStep n) (G.setAttr n "shared_coauthor")).hasEdge P Q
      = G.hasEdge P Q :=
    hl1.1.trans (hasEdge_congr (setAttr_edges G n "shared_coauthor") P Q)
  have hl1w : ∀ a b, uPair a b P Q →
      (l1.foldl (pairUpStep n) (G.setAttr n "shared_coauthor")).weight a b = w := by
    intro a b hab
    rw [hl1.2 a b hab, setAttr_weight]
    exact hw a b hab
  have hhit := pairUpStep_hit (n := n) hue hl1edge hl1w
  have hl2 := innerFold_other (n := n) (P := P) (Q := Q) l2
    (pairUpStep n (l1.foldl (pairUpStep n) (G.setAttr n "shared_coauthor")) epr)
    (fun e' he' => hothers e' (Or.inr he'))
  refine ⟨hl2.1.trans hhit.1, ?_⟩
  intro a b hab
  rw [hl2.2 a b hab, hhit.2 a b hab]

/-- Number of coauthor nodes of the phase-1 graph adjacent to both tracked
professors, among a node list. -/
def pairCount (G1 : Graph) (P Q : String) (ns : List String) : Nat :=
  ns.countP fun c =>
    decide (G1.attr c = some "coauthor" ∧ P ∈ G1.neighbors c ∧ Q ∈ G1.neighbors c)

/-- Running the reclassification pass over a duplicate-free list of
yet-unprocessed nodes turns the tracked count `k` into
`k + pairCount G1 P Q ns`, with the professor–professor edge present exactly
when the count is positive and carrying the count as its weight. -/
theorem phase2_tracked {G1 : Graph} {P Q : String} (hPQ : P ≠ Q)
    (hP : G1.attr P = some "professor") (hQ : G1.attr Q = some "professor")
    (ns : List String) :
    ∀ (G : Graph) (k : Nat), ns.Nodup →
    (∀ c ∈ ns, G.attr c = G1.attr c) →
    stateOK G1 G →
    G.hasEdge P Q = decide (0 < k) →
    (∀ a b, uPair a b P Q → G.weight a b = if 0 < k then some k else none) →
    ((ns.foldl processNode G).hasEdge P Q = decide (0 < k + pairCount G1 P Q ns))
    ∧ (∀ a b, uPair a b P Q → (ns.foldl processNode G).weight a b
        = if 0 < k + pairCount G1 P Q ns then some (k + pairCount G1 P Q ns) else none) := by
  induction ns with
  | nil =>
    intro G k _ _ _ hedge hweight
    exact ⟨by simpa [pairCount] using hedge, by simpa [pairCount] using hweight⟩
  | cons n ns ih =>
    intro G k hnd hattrs hok hedge hweight
    rw [List.nodup_cons] at hnd
    have hattrs' : ∀ c ∈ ns, (processNode G n).attr c = G1.attr c := by
      intro c hc
      rw [processNode_attr_other (fun hcn => hnd.1 (by rw [← hcn]; exact hc))]
      exact hattrs c (List.mem_cons_of_mem _ hc)
    have hok' := processNode_stateOK hok n
    have hcount : pairCount G1 P Q (n :: ns) =
        pairCount G1 P Q ns + if G1.attr n = some "coauthor"
          ∧ P ∈ G1.neighbors n ∧ Q ∈ G1.neighbors n then 1 else 0 := by
      unfold pairCount
      rw [List.countP_cons]
      by_cases hcond : G1.attr n = some "coauthor"
          ∧ P ∈ G1.neighbors n ∧ Q ∈ G1.neighbors n
      · rw [if_pos hcond, if_pos (decide_eq_true hcond)]
      · rw [if_neg hcond, if_neg (by simpa using hcond)]
    rw [List.foldl_cons]
    by_cases hcond : G1.attr n = some "coauthor"
        ∧ P ∈ G1.neighbors n ∧ Q ∈ G1.neighbors n
    · have hbump := processNode_bump hok (hattrs n (List.mem_cons_self _ _)) hPQ hP hQ
        hcond.1 hcond.2.1 hcond.2.2 (if 0 < k then some k else none) hweight
      have hval : (if G.hasEdge P Q = true
          then (if 0 < k then some k else none).getD 1 + 1 else 1) = k + 1 := by
        rw [hedge]
        by_cases hk : 0 < k
        · rw [if_pos (by simpa using hk), if_pos hk]
          simp
        · rw [if_neg (by simpa using hk)]
          omega
      have hmain := ih (processNode G n) (k + 1) hnd.2 hattrs' hok'
        (by rw [hbump.1]; simp)
        (by
          intro a b hab
          rw [hbump.2 a b hab, hval, if_pos (by omega)])
      rw [hcount, if_pos hcond]
      have harith : k + (pairCount G1 P Q ns + 1) = k + 1 + pairCount G1 P Q ns := by
        omega
      rw [harith]
      exact hmain
    · have hoth := processNode_other hok (hattrs n (List.mem_cons_self _ _)) hcond
      have hmain := ih (processNode G n) k hnd.2 hattrs' hok'
        (hoth.1.trans hedge)
        (fun a b hab => (hoth.2 a b hab).trans (hweight a b hab))
      rw [hcount, if_neg hcond]
      simpa using hmain

/-! ### Structural invariants of the builders -/

theorem coFold_nodup (pname : String) (cs : List String) :
    ∀ (H : Graph), H.nodeOrder.Nodup → (cs.foldl (coStep pname) H).nodeOrder.Nodup := by
  induction cs with
  | nil => intro H h; exact h
  | cons c cs ih => intro H h; exact ih _ (coStep_nodup h c)

theorem coFold_edgesDistinct (pname : String) (cs : List String) :
    ∀ (H : Graph), edgesDistinct H → edgesDistinct (cs.foldl (coStep pname) H) := by
  induction cs with
  | nil => intro H h; exact h
  | cons c cs ih => intro H h; exact ih _ (coStep_edgesDistinct h c)

theorem coFold_noSelfLoops (pname : String) (cs : List String) :
    ∀ (H : Graph), noSelfLoops H → (∀ c ∈ cs, pname ≠ c) →
    noSelfLoops (cs.foldl (coStep pname) H) := by
  induction cs with
  | nil => intro H h _; exact h
  | cons c cs ih =>
    intro H h hne
    exact ih _ (coStep_noSelfLoops h (hne c (List.mem_cons_self _ _)))
      (fun c' hc' => hne c' (List.mem_cons_of_mem _ hc'))

theorem addProfile_nodup {G : Graph} (h : G.nodeOrder.Nodup) (p : Profile) :
    (addProfile G p).nodeOrder.Nodup :=
  coFold_nodup _ _ _ (addNode_nodup h _ _)

theorem addProfile_edgesDistinct {G : Graph} (h : edgesDistinct G) (p : Profile) :
    edgesDistinct (addProfile G p) :=
  coFold_edgesDistinct _ _ _ (edgesDistinct_addNode h _ _)

theorem addProfile_noSelfLoops {G : Graph} (h : noSelfLoops G) {p : Profile}
    (hp : p.name ∉ p.coauthors) : noSelfLoops (addProfile G p) :=
  coFold_noSelfLoops _ _ _ (noSelfLoops_addNode h _ _)
    (fun c hc hne => hp (hne ▸ hc))

theorem combinedPhase1_nodup (ps : List Profile) :
    ∀ (G : Graph), G.nodeOrder.Nodup →
    ((ps.map some).foldl combinedStep G).nodeOrder.Nodup := by
  induction ps with
  | nil => intro G h; exact h
  | cons p ps ih =>
    intro G h
    rw [List.map_cons, List.foldl_cons]
    exact ih _ (addProfile_nodup h p)

theorem combinedPhase1_edgesDistinct (ps : List Profile) :
    ∀ (G : Graph), edgesDistinct G →
    edgesDistinct ((ps.map some).foldl combinedStep G) := by
  induction ps with
  | nil => intro G h; exact h
  | cons p ps ih =>
    intro G h
    rw [List.map_cons, List.foldl_cons]
    exact ih _ (addProfile_edgesDistinct h p)

theorem combinedPhase1_noSelfLoops (ps : List Profile) :
    ∀ (G : Graph), noSelfLoops G → (∀ p ∈ ps, p.name ∉ p.coauthors) →
    noSelfLoops ((ps.map some).foldl combinedStep G) := by
  induction ps with
  | nil => intro G h _; exact h
  | cons p ps ih =>
    intro G h hps
    rw [List.map_cons, List.foldl_cons]
    exact ih _ (addProfile_noSelfLoops h (hps p (List.mem_cons_self _ _)))
      (fun p' hp' => hps p' (List.mem_cons_of_mem _ hp'))

theorem foldProcess_stateOK {G1 : Graph} (ns : List String) :
    ∀ (G : Graph), stateOK G1 G → stateOK G1 (ns.foldl processNode G) := by
  induction ns with
  | nil => intro G h; exact h
  | cons n ns ih =>
    intro G h
    rw [List.foldl_cons]
    exact ih _ (processNode_stateOK h n)

theorem innerFold_noSelfLoops {n : String} (pl : List (String × String)) :
    ∀ (H : Graph), noSelfLoops H → (∀ e ∈ pl, e.1 ≠ e.2) →
    noSelfLoops (pl.foldl (pairUpStep n) H) := by
  induction pl with
  | nil => intro H h _; exact h
  | cons e pl ih =>
    intro H h hne
    rw [List.foldl_cons]
    refine ih _ ?_ (fun e' he' => hne e' (List.mem_cons_of_mem _ he'))
    unfold pairUpStep
    split
    · unfold noSelfLoops at h ⊢
      rw [bumpEdge_edges]
      exact h
    · exact noSelfLoops_addEdgeW h (hne e (List.mem_cons_self _ _)) _ _

theorem processNode_noSelfLoops {G : Graph} (h : noSelfLoops G)
    (hd : edgesDistinct G) (n : String) : noSelfLoops (processNode G n) := by
  unfold processNode
  split
  · split
    · refine innerFold_noSelfLoops _ _ ?_ ?_
      · unfold noSelfLoops at h ⊢
        rw [setAttr_edges]
        exact h
      · intro e he
        exact comb2_ne (List.Nodup.filter _ (neighbors_nodup hd n)) he
    · exact h
  · exact h

theorem foldProcess_noSelfLoops (ns : List String) :
    ∀ (G : Graph), noSelfLoops G → edgesDistinct G →
    noSelfLoops (ns.foldl processNode G) := by
  induction ns with
  | nil => intro G h _; exact h
  | cons n ns ih =>
    intro G h hd
    rw [List.foldl_cons]
    have hok : stateOK G G := stateOK_refl hd
    exact ih _ (processNode_noSelfLoops h hd n) (processNode_stateOK hok n).2.2.2

/-! ### The professor–professor edges of the combined graph -/

theorem name_inj {ps : List Profile} (hn : (profNames ps).Nodup)
    {p q : Profile} (hp : p ∈ ps) (hq : q ∈ ps) (h : p.name = q.name) : p = q := by
  unfold profNames at hn
  exact List.inj_on_of_nodup_map hn hp hq h

theorem combined_cond_iff {ps : List Profile}
    (hn : (profNames ps).Nodup)
    (hc : ∀ p' ∈ ps, ∀ q' ∈ ps, p'.name ∉ q'.coauthors)
    {p q : Profile} (hp : p ∈ ps) (hq : q ∈ ps) (c : String) :
    ((combinedPhase1 (ps.map some)).attr c = some "coauthor"
      ∧ p.name ∈ (combinedPhase1 (ps.map some)).neighbors c
      ∧ q.name ∈ (combinedPhase1 (ps.map some)).neighbors c)
    ↔ (c ∈ p.coauthors ∧ c ∈ q.coauthors) := by
  have hnotname : ∀ c', c' ∈ p.coauthors ∨ c' ∈ q.coauthors → c' ∉ profNames ps := by
    rintro c' hco hname
    obtain ⟨r, hr, rfl⟩ := List.mem_map.mp hname
    rcases hco with h | h
    · exact hc r hr p hp h
    · exact hc r hr q hq h
  have hnbspec : ∀ (r : Profile), r ∈ ps → c ∉ profNames ps →
      (r.name ∈ (combinedPhase1 (ps.map some)).neighbors c ↔ c ∈ r.coauthors) := by
    intro r hr hcnotname
    rw [mem_neighbors]
    show ((ps.map some).foldl combinedStep Graph.empty).hasEdge c r.name = true ↔ _
    rw [combinedPhase1_hasEdge]
    constructor
    · rintro (h | ⟨r', hr', c', hc', hu⟩)
      · rw [hasEdge_of_edges_nil rfl] at h
        cases h
      · rcases hu with ⟨h1, h2⟩ | ⟨h1, h2⟩
        · exact absurd (h1 ▸ List.mem_map_of_mem Profile.name hr') hcnotname
        · rw [name_inj hn hr' hr h2.symm] at hc'
          rw [h1]
          exact hc'
    · intro hco
      exact Or.inr ⟨r, hr, c, hco, Or.inr ⟨rfl, rfl⟩⟩
  constructor
  · rintro ⟨hattr, hpn, hqn⟩
    have hcnotname : c ∉ profNames ps := by
      intro hname
      rw [show (combinedPhase1 (ps.map some)).attr c
        = ((ps.map some).foldl combinedStep Graph.empty).attr c from rfl,
        combinedPhase1_attr, if_pos hname] at hattr
      exact absurd hattr (by decide)
    exact ⟨(hnbspec p hp hcnotname).mp hpn, (hnbspec q hq hcnotname).mp hqn⟩
  · rintro ⟨hcp, hcq⟩
    have hcnotname : c ∉ profNames ps := hnotname c (Or.inl hcp)
    refine ⟨?_, (hnbspec p hp hcnotname).mpr hcp, (hnbspec q hq hcnotname).mpr hcq⟩
    rw [show (combinedPhase1 (ps.map some)).attr c
      = ((ps.map some).foldl combinedStep Graph.empty).attr c from rfl,
      combinedPhase1_attr, if_neg hcnotname,
      if_pos ⟨mem_coAll.mpr ⟨p, hp, hcp⟩, by simp [Graph.empty]⟩]

theorem pairCount_eq_interCount {ps : List Profile}
    (hn : (profNames ps).Nodup)
    (hc : ∀ p' ∈ ps, ∀ q' ∈ ps, p'.name ∉ q'.coauthors)
    {p q : Profile} (hp : p ∈ ps) (hq : q ∈ ps) :
    pairCount (combinedPhase1 (ps.map some)) p.name q.name
      (combinedPhase1 (ps.map some)).nodeOrder = interCount p q := by
  have hnodes : (combinedPhase1 (ps.map some)).nodeOrder.Nodup := by
    show ((ps.map some).foldl combinedStep Graph.empty).nodeOrder.Nodup
    exact combinedPhase1_nodup ps Graph.empty (by simp [Graph.empty])
  unfold pairCount
  have hfc : ((combinedPhase1 (ps.map some)).nodeOrder.filter fun c =>
        decide ((combinedPhase1 (ps.map some)).attr c = some "coauthor"
          ∧ p.name ∈ (combinedPhase1 (ps.map some)).neighbors c
          ∧ q.name ∈ (combinedPhase1 (ps.map some)).neighbors c))
      = ((combinedPhase1 (ps.map some)).nodeOrder.filter fun c =>
        decide (c ∈ p.coauthors ∧ c ∈ q.coauthors)) :=
    List.filter_congr fun c _ =>
      decide_eq_decide.mpr (combined_cond_iff hn hc hp hq c)
  rw [List.countP_eq_length_filter, hfc,
    ← List.toFinset_card_of_nodup (List.Nodup.filter _ hnodes),
    List.toFinset_filter, interCount_card]
  congr 1
  ext c
  simp only [Finset.mem_filter, List.mem_toFinset, Finset.mem_inter, decide_eq_true_eq]
  constructor
  · rintro ⟨-, h1, h2⟩
    exact ⟨h1, h2⟩
  · rintro ⟨h1, h2⟩
    refine ⟨?_, h1, h2⟩
    show c ∈ ((ps.map some).foldl combinedStep Graph.empty).nodeOrder
    rw [combinedPhase1_mem]
    exact Or.inr (Or.inr (mem_coAll.mpr ⟨p, hp, h1⟩))

/-- The professor–professor edge of the combined graph exists exactly when
the two coauthor sets intersect, and its weight is the intersection size. -/
theorem combined_edge_weight {ps : List Profile}
    (hn : (profNames ps).Nodup)
    (hc : ∀ p' ∈ ps, ∀ q' ∈ ps, p'.name ∉ q'.coauthors)
    {p q : Profile} (hp : p ∈ ps) (hq : q ∈ ps) (hne : p.name ≠ q.name) :
    (create_combined_network (ps.map some)).hasEdge p.name q.name
      = decide (0 < interCount p q)
    ∧ ((create_combined_network (ps.map some)).weight p.name q.name
      = if 0 < interCount p q then some (interCount p q) else none) := by
  have hattrP : (combinedPhase1 (ps.map some)).attr p.name = some "professor" := by
    show ((ps.map some).foldl combinedStep Graph.empty).attr p.name = _
    rw [combinedPhase1_attr, if_pos (show p.name ∈ profNames ps from
      List.mem_map_of_mem Profile.name hp)]
  have hattrQ : (combinedPhase1 (ps.map some)).attr q.name = some "professor" := by
    show ((ps.map some).foldl combinedStep Graph.empty).attr q.name = _
    rw [combinedPhase1_attr, if_pos (show q.name ∈ profNames ps from
      List.mem_map_of_mem Profile.name hq)]
  have hnodes : (combinedPhase1 (ps.map some)).nodeOrder.Nodup := by
    show ((ps.map some).foldl combinedStep Graph.empty).nodeOrder.Nodup
    exact combinedPhase1_nodup ps Graph.empty (by simp [Graph.empty])
  have hdist : edgesDistinct (combinedPhase1 (ps.map some)) := by
    show edgesDistinct ((ps.map some).foldl combinedStep Graph.empty)
    exact combinedPhase1_edgesDistinct ps Graph.empty (by unfold edgesDistinct; simp [Graph.empty])
  have hedge0 : (combinedPhase1 (ps.map some)).hasEdge p.name q.name = false := by
    rw [Bool.eq_false_iff, Ne]
    show ¬ ((ps.map some).foldl combinedStep Graph.empty).hasEdge p.name q.name = true
    rw [combinedPhase1_hasEdge]
    rintro (h | ⟨r, hr, c, hcr, hu⟩)
    · rw [hasEdge_of_edges_nil rfl] at h
      cases h
    · rcases hu with ⟨h1, h2⟩ | ⟨h1, h2⟩
      · exact hc q hq r hr (h2 ▸ hcr)
      · exact hc p hp r hr (h1 ▸ hcr)
  have hw0 : ∀ a b, uPair a b p.name q.name →
      (combinedPhase1 (ps.map some)).weight a b = if 0 < 0 then some 0 else none := by
    intro a b _
    rw [if_neg (by omega)]
    show ((ps.map some).foldl combinedStep Graph.empty).weight a b = none
    rw [combinedPhase1_weight]
    rfl
  have htrack := phase2_tracked hne hattrP hattrQ
    (combinedPhase1 (ps.map some)).nodeOrder (combinedPhase1 (ps.map some)) 0
    hnodes (fun _ _ => rfl) (stateOK_refl hdist)
    (by rw [hedge0]; rfl) hw0
  rw [pairCount_eq_interCount hn hc hp hq, Nat.zero_add] at htrack
  exact ⟨htrack.1, htrack.2 p.name q.name (uPair_refl _ _)⟩

/-- The professor–professor edge of the shared-connections graph exists
exactly when the two coauthor sets intersect (when no professor name occurs
in a coauthor set). -/
theorem shared_hasEdge_pair {ps : List Profile}
    (hn : (profNames ps).Nodup)
    (hc : ∀ p' ∈ ps, ∀ q' ∈ ps, p'.name ∉ q'.coauthors)
    {p q : Profile} (hp : p ∈ ps) (hq : q ∈ ps) (hne : p.name ≠ q.name) :
    (find_shared_connections (ps.map some)).hasEdge p.name q.name
      = decide (0 < interCount p q) := by
  rw [Bool.eq_iff_iff, decide_eq_true_eq, shared_hasEdge_spec hn, Nat.pos_iff_ne_zero,
    interCount_pos_iff]
  constructor
  · rintro ⟨p', hp', q', hq', hnames, hcase⟩
    rcases hcase with ⟨hu, c, hcc⟩ | ⟨c, hcc, hu⟩
    · rcases hu with ⟨h1, h2⟩ | ⟨h1, h2⟩
      · rw [name_inj hn hp' hp h1.symm, name_inj hn hq' hq h2.symm] at hcc
        exact ⟨c, hcc⟩
      · rw [name_inj hn hp' hq h2.symm, name_inj hn hq' hp h1.symm] at hcc
        exact ⟨c, hcc.2, hcc.1⟩
    · rcases hu with hu | hu <;> rcases hu with ⟨h1, h2⟩ | ⟨h1, h2⟩
      · exact absurd (h2 ▸ hcc.2) (hc q hq q' hq')
      · exact absurd (h1 ▸ hcc.1) (hc p hp p' hp')
      · exact absurd (h2 ▸ hcc.1) (hc q hq p' hp')
      · exact absurd (h1 ▸ hcc.2) (hc p hp q' hq')
  · rintro ⟨c, hcp, hcq⟩
    exact ⟨p, hp, q, hq, hne, Or.inl ⟨uPair_refl _ _, c, hcp, hcq⟩⟩

/-- C2 (amended): with pairwise-distinct professor names not occurring in any
coauthor set, the Combined builder and the Shared-Connections builder agree
on every professor–professor edge and its weight, the weight being the size
of the two coauthor sets' intersection (full node/edge membership differs:
see the counterexample). -/
theorem C2_amended_combined_equals_shared (ps : List Profile)
    (hn : (profNames ps).Nodup)
    (hc : ∀ p' ∈ ps, ∀ q' ∈ ps, p'.name ∉ q'.coauthors) :
    ∀ p ∈ ps, ∀ q ∈ ps, p.name ≠ q.name →
    ((create_combined_network (ps.map some)).hasEdge p.name q.name
      = (find_shared_connections (ps.map some)).hasEdge p.name q.name)
    ∧ ((create_combined_network (ps.map some)).weight p.name q.name
      = (find_shared_connections (ps.map some)).weight p.name q.name)
    ∧ ((find_shared_connections (ps.map some)).weight p.name q.name
      = if 0 < interCount p q then some (interCount p q) else none) := by
  intro p hp q hq hne
  have hcomb := combined_edge_weight hn hc hp hq hne
  have hsw : (find_shared_connections (ps.map some)).weight p.name q.name
      = if 0 < interCount p q then some (interCount p q) else none := by
    rw [shared_weight_pair hn hp hq hne]
    by_cases hex : ∃ c, c ∈ p.coauthors ∧ c ∈ q.coauthors
    · rw [if_pos hex, if_pos (Nat.pos_iff_ne_zero.mpr ((interCount_pos_iff p q).mpr hex))]
    · rw [if_neg hex, if_neg (fun hcon =>
        hex ((interCount_pos_iff p q).mp (Nat.pos_iff_ne_zero.mp hcon)))]
  refine ⟨?_, ?_, hsw⟩
  · rw [hcomb.1, shared_hasEdge_pair hn hc hp hq hne]
  · rw [hcomb.2, hsw]

def psC2 : List Profile :=
  [⟨"P1", ["A", "B", "D"]⟩, ⟨"P2", ["B", "C", "A"]⟩, ⟨"P3", ["C", "A", "E"]⟩]

/-- Concrete instance of the C2 agreement: on a three-profile input the
combined and shared builders give the P1–P2 edge the same weight 2. -/
theorem C2_witness :
    (profNames psC2).Nodup
    ∧ (∀ p' ∈ psC2, ∀ q' ∈ psC2, p'.name ∉ q'.coauthors)
    ∧ ((create_combined_network (psC2.map some)).weight "P1" "P2"
        = (find_shared_connections (psC2.map some)).weight "P1" "P2")
    ∧ (find_shared_connections (psC2.map some)).weight "P1" "P2" = some 2 := by
  have h := C2_amended_combined_equals_shared psC2 (by decide) (by decide)
      ⟨"P1", ["A", "B", "D"]⟩ (by decide) ⟨"P2", ["B", "C", "A"]⟩ (by decide) (by decide)
  exact ⟨by decide, by decide, h.2.1, h.2.2.trans (by decide)⟩

/-- The coauthor loop of the individual builder never touches the professor
classification when the professor name is not one of the coauthors. -/
theorem indivFold_attr (pname : String) (cs : List String) :
    ∀ (G : Graph), pname ∉ cs →
    ((cs.foldl (fun G c => (G.addNode c "coauthor").addEdgePlain pname c) G).attr pname
      = G.attr pname) := by
  induction cs with
  | nil => intro G _; rfl
  | cons c cs ih =>
    intro G hno
    rw [List.foldl_cons, ih _ (fun h => hno (List.mem_cons_of_mem _ h)),
      addEdgePlain_attr, addNode_attr, if_neg (fun h => hno (List.mem_cons.mpr (Or.inl h)))]

/-- C1 (amended): when no professor name occurs in any profile's coauthor
list, every builder — individual, shared-connections and combined —
classifies each input professor name as a `professor` node; the
classification is never downgraded.  (Without the proviso the counterexample
shows networkx attribute overwriting downgrades it.) -/
theorem C1_amended_professor_wins (ps : List Profile)
    (hc : ∀ p' ∈ ps, ∀ q' ∈ ps, p'.name ∉ q'.coauthors) :
    ∀ p ∈ ps,
    (((create_individual_network (some p)).getD Graph.empty).attr p.name = some "professor")
    ∧ ((find_shared_connections (ps.map some)).attr p.name = some "professor")
    ∧ ((create_combined_network (ps.map some)).attr p.name = some "professor") := by
  intro p hp
  refine ⟨?_, ?_, ?_⟩
  · show ((p.coauthors.foldl (fun G c => (G.addNode c "coauthor").addEdgePlain p.name c)
      (Graph.empty.addNode p.name "professor")).attr p.name = some "professor")
    rw [indivFold_attr p.name p.coauthors _ (hc p hp p hp), addNode_attr, if_pos rfl]
  · have hno : ¬ ∃ pr ∈ combinations2 (sharedPhase1 (ps.map some)).1,
        p.name ∈ interOf pr := by
      rintro ⟨pr, hpr, hmem⟩
      obtain ⟨kv1, kv2⟩ := pr
      have h2 : kv2 ∈ ((ps.map some).foldl sharedPhase1Step ([], Graph.empty)).1 :=
        (comb2_mem_both hpr).2
      rcases sharedPhase1_fst_entries ps [] Graph.empty kv2 h2 with h | ⟨q, hq, hkv2⟩
      · exact absurd h (List.not_mem_nil _)
      · simp only [interOf, List.mem_filter, decide_eq_true_eq] at hmem
        have h22 : kv2.2 = q.coauthors.dedup := by rw [hkv2]
        rw [h22, List.mem_dedup] at hmem
        exact hc p hp q hq hmem.2
    unfold find_shared_connections
    rw [phase2_attr, if_neg hno, sharedPhase1_attr,
      if_pos (show p.name ∈ profNames ps from List.mem_map_of_mem Profile.name hp)]
  · have hdist : edgesDistinct (combinedPhase1 (ps.map some)) := by
      show edgesDistinct ((ps.map some).foldl combinedStep Graph.empty)
      exact combinedPhase1_edgesDistinct ps Graph.empty
        (by unfold edgesDistinct; simp [Graph.empty])
    have hok := foldProcess_stateOK (combinedPhase1 (ps.map some)).nodeOrder
      (combinedPhase1 (ps.map some)) (stateOK_refl hdist)
    have hattrP : (combinedPhase1 (ps.map some)).attr p.name = some "professor" := by
      show ((ps.map some).foldl combinedStep Graph.empty).attr p.name = _
      rw [combinedPhase1_attr, if_pos (show p.name ∈ profNames ps from
        List.mem_map_of_mem Profile.name hp)]
    exact (hok.1 p.name).mpr hattrP

/-- Concrete instance of C1 on a two-profile input. -/
theorem C1_witness :
    (∀ p' ∈ [(⟨"P", ["A"]⟩ : Profile), ⟨"Q", ["A", "B"]⟩],
        ∀ q' ∈ [(⟨"P", ["A"]⟩ : Profile), ⟨"Q", ["A", "B"]⟩], p'.name ∉ q'.coauthors)
    ∧ ((create_individual_network (some (⟨"P", ["A"]⟩ : Profile))).getD Graph.empty).attr "P"
        = some "professor"
    ∧ (find_shared_connections
        (([(⟨"P", ["A"]⟩ : Profile), ⟨"Q", ["A", "B"]⟩]).map some)).attr "P" = some "professor"
    ∧ (create_combined_network
        (([(⟨"P", ["A"]⟩ : Profile), ⟨"Q", ["A", "B"]⟩]).map some)).attr "P" = some "professor" := by
  have h := C1_amended_professor_wins [⟨"P", ["A"]⟩, ⟨"Q", ["A", "B"]⟩]
      (by decide) ⟨"P", ["A"]⟩ (by decide)
  exact ⟨by decide, h.1, h.2.1, h.2.2⟩

/-! ### C9: no self-loops, no parallel edges -/

theorem comb2_map {α β : Type} (f : α → β) {l : List α} {x y : α}
    (h : (x, y) ∈ combinations2 l) : (f x, f y) ∈ combinations2 (l.map f) := by
  induction l with
  | nil => cases h
  | cons a t ih =>
    rw [combinations2, List.mem_append] at h
    rw [List.map_cons, combinations2, List.mem_append]
    rcases h with h | h
    · rw [List.mem_map] at h
      obtain ⟨b, hb, hxy⟩ := h
      cases hxy
      exact Or.inl (List.mem_map.mpr ⟨_, List.mem_map_of_mem f hb, rfl⟩)
    · exact Or.inr (ih h)

theorem chain_edgesDistinct (p q : String) (cs : List String) :
    ∀ (H : Graph), edgesDistinct H →
    edgesDistinct (cs.foldl (addSharedChainStep p q) H) := by
  induction cs with
  | nil => intro H h; exact h
  | cons c cs ih =>
    intro H h
    rw [List.foldl_cons]
    exact ih _ (edgesDistinct_addEdgePlain (edgesDistinct_addEdgePlain
      (edgesDistinct_addNode h c "shared_coauthor") p c) q c)

theorem chain_noSelfLoops (p q : String) (cs : List String) :
    ∀ (H : Graph), noSelfLoops H → (∀ c ∈ cs, p ≠ c ∧ q ≠ c) →
    noSelfLoops (cs.foldl (addSharedChainStep p q) H) := by
  induction cs with
  | nil => intro H h _; exact h
  | cons c cs ih =>
    intro H h hside
    rw [List.foldl_cons]
    refine ih _ ?_ (fun c' hc' => hside c' (List.mem_cons_of_mem _ hc'))
    have hc0 := hside c (List.mem_cons_self _ _)
    exact noSelfLoops_addEdgePlain (noSelfLoops_addEdgePlain
      (noSelfLoops_addNode h c "shared_coauthor") hc0.1) hc0.2

theorem pairStep_edgesDistinct {G : Graph} (h : edgesDistinct G)
    (pr : (String × List String) × (String × List String)) :
    edgesDistinct (sharedPairStep G pr) := by
  unfold sharedPairStep
  by_cases he : (interOf pr).isEmpty
  · rw [if_pos he]; exact h
  · rw [if_neg he]
    exact chain_edgesDistinct _ _ _ _ (edgesDistinct_addEdgeW h _ _ _ _)

theorem pairStep_noSelfLoops {G : Graph} (h : noSelfLoops G)
    {pr : (String × List String) × (String × List String)}
    (hpq : pr.1.1 ≠ pr.2.1)
    (hside : ∀ c ∈ interOf pr, pr.1.1 ≠ c ∧ pr.2.1 ≠ c) :
    noSelfLoops (sharedPairStep G pr) := by
  unfold sharedPairStep
  by_cases he : (interOf pr).isEmpty
  · rw [if_pos he]; exact h
  · rw [if_neg he]
    exact chain_noSelfLoops _ _ _ _ (noSelfLoops_addEdgeW h hpq _ _) hside

theorem phase2_edgesDistinct (L : List ((String × List String) × (String × List String))) :
    ∀ (G : Graph), edgesDistinct G → edgesDistinct (L.foldl sharedPairStep G) := by
  induction L with
  | nil => intro G h; exact h
  | cons pr L ih =>
    intro G h
    rw [List.foldl_cons]
    exact ih _ (pairStep_edgesDistinct h pr)

theorem phase2_noSelfLoops (L : List ((String × List String) × (String × List String))) :
    ∀ (G : Graph), noSelfLoops G →
    (∀ pr ∈ L, pr.1.1 ≠ pr.2.1 ∧ ∀ c ∈ interOf pr, pr.1.1 ≠ c ∧ pr.2.1 ≠ c) →
    noSelfLoops (L.foldl sharedPairStep G) := by
  induction L with
  | nil => intro G h _; exact h
  | cons pr L ih =>
    intro G h hside
    rw [List.foldl_cons]
    refine ih _ ?_ (fun pr' hpr' => hside pr' (List.mem_cons_of_mem _ hpr'))
    have h0 := hside pr (List.mem_cons_self _ _)
    exact pairStep_noSelfLoops h h0.1 h0.2

/-- Every professor pair the shared builder draws from the phase-1 dict has
distinct keys (dict keys are unique whatever the input), and — when no
professor name occurs in any coauthor set — neither key is one of the pair's
shared coauthors. -/
theorem sharedPairs_sides {ps : List Profile}
    (hc : ∀ p' ∈ ps, ∀ q' ∈ ps, p'.name ∉ q'.coauthors) :
    ∀ pr ∈ combinations2 (sharedPhase1 (ps.map some)).1,
      pr.1.1 ≠ pr.2.1 ∧ ∀ c ∈ interOf pr, pr.1.1 ≠ c ∧ pr.2.1 ≠ c := by
  intro pr hpr
  obtain ⟨kv1, kv2⟩ := pr
  have hmem := comb2_mem_both hpr
  have h1 : kv1 ∈ ((ps.map some).foldl sharedPhase1Step ([], Graph.empty)).1 := hmem.1
  have h2 : kv2 ∈ ((ps.map some).foldl sharedPhase1Step ([], Graph.empty)).1 := hmem.2
  rcases sharedPhase1_fst_entries ps [] Graph.empty kv1 h1 with h | ⟨p, hp, hkv1⟩
  · exact absurd h (List.not_mem_nil _)
  rcases sharedPhase1_fst_entries ps [] Graph.empty kv2 h2 with h | ⟨q, hq, hkv2⟩
  · exact absurd h (List.not_mem_nil _)
  constructor
  · have hkeys := comb2_map Prod.fst hpr
    have hnodup : (((sharedPhase1 (ps.map some)).1).map Prod.fst).Nodup :=
      sharedPhase1_fst_keys_nodup ps [] Graph.empty (by simp)
    exact comb2_ne hnodup hkeys
  · subst hkv1
    subst hkv2
    intro c hcmem
    simp only [interOf, List.mem_filter, decide_eq_true_eq, List.mem_dedup] at hcmem
    refine ⟨fun heq => ?_, fun heq => ?_⟩
    · have heq' : p.name = c := heq
      exact hc p hp p hp (by rw [heq']; exact hcmem.1)
    · have heq' : q.name = c := heq
      exact hc q hq q hq (by rw [heq']; exact hcmem.2)

theorem indivFold_edgesDistinct (pname : String) (cs : List String) :
    ∀ (G : Graph), edgesDistinct G →
    edgesDistinct (cs.foldl (fun G c => (G.addNode c "coauthor").addEdgePlain pname c) G) := by
  induction cs with
  | nil => intro G h; exact h
  | cons c cs ih =>
    intro G h
    rw [List.foldl_cons]
    exact ih _ (edgesDistinct_addEdgePlain (edgesDistinct_addNode h c "coauthor") pname c)

theorem indivFold_noSelfLoops (pname : String) (cs : List String) :
    ∀ (G : Graph), noSelfLoops G → (∀ c ∈ cs, pname ≠ c) →
    noSelfLoops (cs.foldl (fun G c => (G.addNode c "coauthor").addEdgePlain pname c) G) := by
  induction cs with
  | nil => intro G h _; exact h
  | cons c cs ih =>
    intro G h hside
    rw [List.foldl_cons]
    exact ih _ (noSelfLoops_addEdgePlain (noSelfLoops_addNode h c "coauthor")
      (hside c (List.mem_cons_self _ _)))
      (fun c' hc' => hside c' (List.mem_cons_of_mem _ hc'))

/-- C9 (amended): no builder ever stores two parallel copies of an edge
(repeated `add_edge` calls merge into the stored edge, rewriting its
attributes), and — provided no professor name occurs in any coauthor set —
no builder creates a self-loop.  (Without the proviso the counterexample
shows the self-loop `(P, P)`.) -/
theorem C9_amended_no_dup_edges_no_selfloops (ps : List Profile) :
    (∀ op : Option Profile, edgesDistinct ((create_individual_network op).getD Graph.empty))
    ∧ edgesDistinct (find_shared_connections (ps.map some))
    ∧ edgesDistinct (create_combined_network (ps.map some))
    ∧ (∀ (G : Graph) (u v : String) (w : Nat) (s : List String),
        G.hasEdge u v = true →
        (G.addEdgeW u v w s).edges = G.edges
        ∧ (G.addEdgeW u v w s).weight u v = some w
        ∧ (G.addEdgeW u v w s).shared u v = some s)
    ∧ ((∀ p' ∈ ps, ∀ q' ∈ ps, p'.name ∉ q'.coauthors) →
        (∀ p ∈ ps, noSelfLoops ((create_individual_network (some p)).getD Graph.empty))
        ∧ noSelfLoops (find_shared_connections (ps.map some))
        ∧ noSelfLoops (create_combined_network (ps.map some))) := by
  refine ⟨?_, ?_, ?_, ?_, ?_⟩
  · intro op
    match op with
    | none =>
      show edgesDistinct Graph.empty
      unfold edgesDistinct
      simp [Graph.empty]
    | some p =>
      show edgesDistinct (p.coauthors.foldl
        (fun G c => (G.addNode c "coauthor").addEdgePlain p.name c)
        (Graph.empty.addNode p.name "professor"))
      exact indivFold_edgesDistinct _ _ _
        (by unfold edgesDistinct; simp [addNode_edges, Graph.empty])
  · unfold find_shared_connections
    exact phase2_edgesDistinct _ _
      (by unfold edgesDistinct; rw [sharedPhase1_edges]; exact List.Pairwise.nil)
  · have hdist0 : edgesDistinct (combinedPhase1 (ps.map some)) := by
      show edgesDistinct ((ps.map some).foldl combinedStep Graph.empty)
      exact combinedPhase1_edgesDistinct ps Graph.empty
        (by unfold edgesDistinct; simp [Graph.empty])
    exact (foldProcess_stateOK (combinedPhase1 (ps.map some)).nodeOrder
      (combinedPhase1 (ps.map some)) (stateOK_refl hdist0)).2.2.2
  · intro G u v w s hE
    refine ⟨?_, ?_, ?_⟩
    · rw [addEdgeW_edges, if_pos hE]
    · rw [addEdgeW_weight, if_pos (uPair_refl u v)]
    · rw [addEdgeW_shared, if_pos (uPair_refl u v)]
  · intro hc
    refine ⟨?_, ?_, ?_⟩
    · intro p hp
      show noSelfLoops (p.coauthors.foldl
        (fun G c => (G.addNode c "coauthor").addEdgePlain p.name c)
        (Graph.empty.addNode p.name "professor"))
      refine indivFold_noSelfLoops _ _ _
        (by unfold noSelfLoops; simp [addNode_edges, Graph.empty]) ?_
      intro c hcm heq
      exact hc p hp p hp (by rw [heq]; exact hcm)
    · unfold find_shared_connections
      refine phase2_noSelfLoops _ _ ?_ (sharedPairs_sides hc)
      unfold noSelfLoops
      rw [sharedPhase1_edges]
      intro e he
      cases he
    · have hdist0 : edgesDistinct (combinedPhase1 (ps.map some)) := by
        show edgesDistinct ((ps.map some).foldl combinedStep Graph.empty)
        exact combinedPhase1_edgesDistinct ps Graph.empty
          (by unfold edgesDistinct; simp [Graph.empty])
      refine foldProcess_noSelfLoops _ _ ?_ hdist0
      show noSelfLoops ((ps.map some).foldl combinedStep Graph.empty)
      exact combinedPhase1_noSelfLoops ps Graph.empty
        (by unfold noSelfLoops; simp [Graph.empty]) (fun p hp => hc p hp p hp)

/-- Concrete instance of C9 on a two-profile input with an overlapping
coauthor. -/
theorem C9_witness :
    edgesDistinct (find_shared_connections
        (([(⟨"P", ["A"]⟩ : Profile), ⟨"Q", ["A"]⟩]).map some))
    ∧ edgesDistinct (create_combined_network
        (([(⟨"P", ["A"]⟩ : Profile), ⟨"Q", ["A"]⟩]).map some))
    ∧ (∀ p' ∈ [(⟨"P", ["A"]⟩ : Profile), ⟨"Q", ["A"]⟩],
        ∀ q' ∈ [(⟨"P", ["A"]⟩ : Profile), ⟨"Q", ["A"]⟩], p'.name ∉ q'.coauthors)
    ∧ noSelfLoops (find_shared_connections
        (([(⟨"P", ["A"]⟩ : Profile), ⟨"Q", ["A"]⟩]).map some)) := by
  have h := C9_amended_no_dup_edges_no_selfloops [⟨"P", ["A"]⟩, ⟨"Q", ["A"]⟩]
  exact ⟨h.2.1, h.2.2.1, by decide, (h.2.2.2.2 (by decide)).2.1⟩
